import Mathlib

/-!
JavaNumberToken: the numeric-literal scanner

A shallow embedding of `src/Chapter3/wci/frontend/java/tokens/JavaNumberToken.cpp`.

* The member fields `type`, `text`, `value` of the token are an explicit `Token` record that
  every member function takes and returns.
* The character cursor (`Source`) is passed and returned alongside it.
* `int` is `Int` reduced by `wrap32` after every arithmetic operation (two's-complement
  wraparound, the behaviour the watermark overflow test of `compute_integer_value` relies on).
* `double`/`float` arithmetic is not interpreted: it is a parameter (`FloatOps`), so every
  statement about real values holds for any implementation of the arithmetic.
  `exactOps` (exact rational arithmetic) is the instance used for concrete evaluation.
* `std::string` is `List Char`; `while` loops over a string or over the cursor are structural
  recursions over the characters still to be visited.
-/

namespace JavaNumberToken

/-! ## Data model -/

/-- Token types assigned by the scanner (`JT_INTEGER`, `JT_DOUBLE`, `JT_ERROR`). -/
inductive TokenType where
  | JT_INTEGER
  | JT_DOUBLE
  | JT_ERROR
  deriving DecidableEq, Repr

/-- Modelled from the spec: the error kinds of `JavaError.h` (not part of the sources at hand),
the three kinds of section 7: no digit where one is required, integer out of range, real out
of range. -/
inductive JavaErrorCode where
  | INVALID_NUMBER
  | RANGE_INTEGER
  | RANGE_REAL
  deriving DecidableEq, Repr

/-- The payload stored in `value`: `DataValue(int)`, `DataValue(float)`, or
`DataValue((int) code)` for an error code. -/
inductive DataValue (F : Type) where
  | int (v : Int)
  | float (v : F)
  | code (c : JavaErrorCode)
  deriving DecidableEq, Repr

/-- The mutable members of the token under construction. -/
structure Token (F : Type) where
  type : TokenType
  text : List Char
  value : Option (DataValue F)
  deriving DecidableEq, Repr

/-- Modelled from the spec: the character cursor of section 6 (class `Source`, not part of the
sources at hand). `chars` are the characters from the current position onwards, `pos` counts
the characters consumed so far. -/
structure Source where
  chars : List Char
  pos : Nat
  deriving DecidableEq, Repr

/-- Modelled from the spec: the end-of-input sentinel, a character that is neither a digit nor
a dot nor an exponent marker. -/
def END_OF_FILE : Char := Char.ofNat 0

/-- The character at the head of the remaining input, the sentinel at its end. -/
def firstChar : List Char → Char
  | [] => END_OF_FILE
  | c :: _ => c

/-- Modelled from the spec: `currentChar()`, the character under the cursor. -/
def Source.current_char (s : Source) : Char := firstChar s.chars

/-- Modelled from the spec: `peekChar()`, one character past the current one, no advance. -/
def Source.peek_char (s : Source) : Char := firstChar s.chars.tail

/-- Modelled from the spec: `nextChar()`, advance one position; the character it returns is
`current_char` of the cursor returned here. -/
def Source.next_char (s : Source) : Source := ⟨s.chars.tail, s.pos + 1⟩

/-- The floating-point operations the scanner uses, over `double` (`D`) and `float` (`F`):
conversion of an `int`, `+`, `*`, `pow(10, e)` and the narrowing `double → float`. -/
structure FloatOps (D F : Type) where
  ofInt : Int → D
  add : D → D → D
  mul : D → D → D
  pow10 : Int → D
  narrow : D → F

/-- Exact rational arithmetic as an instance of the floating-point operations. -/
def exactOps : FloatOps ℚ ℚ where
  ofInt := fun i => (i : ℚ)
  add := fun a b => a + b
  mul := fun a b => a * b
  pow10 := fun e => (10 : ℚ) ^ e
  narrow := fun x => x

/-! ## Machine integers -/

/-- Reduction of an integer to the signed 32-bit range by two's-complement wraparound. -/
def wrap32 (x : Int) : Int := (x + 2147483648) % 4294967296 - 2147483648

/-- The function `abs` on `int`: the magnitude, wrapped (so `abs INT_MIN = INT_MIN`). -/
def abs32 (x : Int) : Int := wrap32 (if x < 0 then -x else x)

/-- The constant `JavaNumberToken::MAX_EXPONENT`. -/
def MAX_EXPONENT : Int := 37

/-- The function `isdigit`. -/
def isdigit (c : Char) : Bool := c.isDigit

/-- The expression `digits[index] - '0'`. -/
def digitOf (c : Char) : Int := (c.toNat : Int) - 48

/-! ## unsigned_integer_digits -/

/-- The loop `while (isdigit(current_ch)) { text += current_ch; digits += current_ch;
current_ch = next_char(); }`, by recursion over the characters under the cursor.
Returns `(text, digits, cursor)`. -/
def digits_loop : List Char → Nat → List Char → List Char → List Char × List Char × Source
  | [], pos, text, digits => (text, digits, ⟨[], pos⟩)
  | c :: cs, pos, text, digits =>
    if isdigit c then digits_loop cs (pos + 1) (text ++ [c]) (digits ++ [c])
    else (text, digits, ⟨c :: cs, pos⟩)

/-- The member function `unsigned_integer_digits`: returns the digits, the token and the
cursor. -/
def unsigned_integer_digits {F : Type} (tok : Token F) (src : Source) :
    List Char × Token F × Source :=
  let current_ch := src.current_char
  if !isdigit current_ch then
    ([], { tok with type := .JT_ERROR, value := some (.code .INVALID_NUMBER) }, src)
  else
    let r := digits_loop src.chars src.pos tok.text []
    (r.2.1, { tok with text := r.1 }, r.2.2)

/-! ## compute_integer_value -/

/-- The loop `while ((index < digits.length()) && (integer_value >= prev_value))` over the
digits from `index` on; returns `(integer_value, prev_value)` at loop exit. -/
def accumulate : List Char → Int → Int → Int × Int
  | [], integer_value, prev_value => (integer_value, prev_value)
  | c :: cs, integer_value, prev_value =>
    if integer_value ≥ prev_value then
      accumulate cs (wrap32 (10 * integer_value + digitOf c)) integer_value
    else (integer_value, prev_value)

/-- The member function `compute_integer_value`. -/
def compute_integer_value {F : Type} (tok : Token F) (digits : List Char) : Token F × Int :=
  if digits = [] then (tok, 0)
  else
    let r := accumulate digits 0 (-1)
    if r.1 ≥ r.2 then (tok, r.1)
    else ({ tok with type := .JT_ERROR, value := some (.code .RANGE_INTEGER) }, 0)

/-! ## compute_float_value -/

/-- The exponent after the sign and the fraction adjustment (lines 200 to 212), from the
value returned for the exponent digits. -/
def adjust_exponent (exponent_value : Int) (fraction_digits : List Char) (exponent_sign : Char) :
    Int :=
  let exponent_value := if exponent_sign = '-' then wrap32 (-exponent_value) else exponent_value
  if fraction_digits ≠ [] then wrap32 (exponent_value - (fraction_digits.length : Int))
  else exponent_value

/-- The loop `float_value = 10*float_value + (digits[index] - '0')` over all digits. -/
def mantissa {D F : Type} (ops : FloatOps D F) (digits : List Char) : D :=
  digits.foldl (fun float_value c => ops.add (ops.mul (ops.ofInt 10) float_value)
    (ops.ofInt (digitOf c))) (ops.ofInt 0)

/-- The member function `compute_float_value`. -/
def compute_float_value {D F : Type} (ops : FloatOps D F) (tok : Token F)
    (whole_digits fraction_digits exponent_digits : List Char) (exponent_sign : Char) :
    Token F × F :=
  let r := compute_integer_value tok exponent_digits
  let tok := r.1
  let exponent_value := adjust_exponent r.2 fraction_digits exponent_sign
  let digits := if fraction_digits ≠ [] then whole_digits ++ fraction_digits else whole_digits
  let whole_length := wrap32 (whole_digits.length : Int)
  if abs32 (wrap32 (exponent_value + whole_length)) > MAX_EXPONENT then
    ({ tok with type := .JT_ERROR, value := some (.code .RANGE_REAL) }, ops.narrow (ops.ofInt 0))
  else
    let float_value := mantissa ops digits
    let float_value :=
      if exponent_value ≠ 0 then ops.mul float_value (ops.pow10 exponent_value) else float_value
    (tok, ops.narrow float_value)

/-! ## extract -/

/-- Lines 95 to 118 of `extract`: the value computation, dispatched on the token type. -/
def compute_value {D F : Type} (ops : FloatOps D F) (tok : Token F) (src : Source)
    (whole_digits fraction_digits exponent_digits : List Char) (exponent_sign : Char) :
    Token F × Source :=
  if tok.type = .JT_INTEGER then
    let r := compute_integer_value tok whole_digits
    if r.1.type ≠ .JT_ERROR then ({ r.1 with value := some (.int r.2) }, src) else (r.1, src)
  else if tok.type = .JT_DOUBLE then
    let r := compute_float_value ops tok whole_digits fraction_digits exponent_digits
      exponent_sign
    if r.1.type ≠ .JT_ERROR then ({ r.1 with value := some (.float r.2) }, src) else (r.1, src)
  else (tok, src)

/-- Lines 73 to 118 of `extract`: the exponent part, then the value computation. -/
def extract_exponent {D F : Type} (ops : FloatOps D F) (tok : Token F) (src : Source)
    (whole_digits fraction_digits : List Char) (saw_dot_dot : Bool) : Token F × Source :=
  let current_ch := src.current_char
  if !saw_dot_dot && (current_ch = 'E' || current_ch = 'e') then
    let tok := { tok with type := .JT_DOUBLE, text := tok.text ++ [current_ch] }
    let src := src.next_char
    let current_ch := src.current_char
    if current_ch = '+' || current_ch = '-' then
      let tok := { tok with text := tok.text ++ [current_ch] }
      let exponent_sign := current_ch
      let src := src.next_char
      let r := unsigned_integer_digits tok src
      compute_value ops r.2.1 r.2.2 whole_digits fraction_digits r.1 exponent_sign
    else
      let r := unsigned_integer_digits tok src
      compute_value ops r.2.1 r.2.2 whole_digits fraction_digits r.1 '+'
  else compute_value ops tok src whole_digits fraction_digits [] '+'

/-- The member function `extract`: returns the token and the cursor. -/
def extract {D F : Type} (ops : FloatOps D F) (tok : Token F) (src : Source) :
    Token F × Source :=
  let tok := { tok with type := .JT_INTEGER }
  let r := unsigned_integer_digits tok src
  let whole_digits := r.1
  let tok := r.2.1
  let src := r.2.2
  if tok.type = .JT_ERROR then (tok, src)
  else
    let current_ch := src.current_char
    if current_ch = '.' then
      if src.peek_char = '.' then
        extract_exponent ops tok src whole_digits [] true
      else
        let tok := { tok with type := .JT_DOUBLE, text := tok.text ++ [current_ch] }
        let src := src.next_char
        let r := unsigned_integer_digits tok src
        if r.2.1.type = .JT_ERROR then (r.2.1, r.2.2)
        else extract_exponent ops r.2.1 r.2.2 whole_digits r.1 false
    else extract_exponent ops tok src whole_digits [] false

/-- Modelled from the spec: the token as the base-class constructors (not part of the sources
at hand) leave it before `extract` runs: empty text, no value. -/
def Token.fresh (F : Type) : Token F := ⟨.JT_INTEGER, [], none⟩

/-- The constructor `JavaNumberToken(Source*)`: a fresh token, then `extract()`. -/
def scan {D F : Type} (ops : FloatOps D F) (input : List Char) : Token F × Source :=
  extract ops (Token.fresh F) ⟨input, 0⟩

/-! ## Specification-side notions -/

/-- The mathematical value of a digit string, read in base ten. -/
def natValue (digits : List Char) : Nat :=
  digits.foldl (fun n c => 10 * n + (c.toNat - 48)) 0

/-- Every character of the string is a decimal digit. -/
def IsDigits (digits : List Char) : Prop := ∀ c ∈ digits, isdigit c = true

instance (digits : List Char) : Decidable (IsDigits digits) := by
  unfold IsDigits; infer_instance

/-- The character under a cursor holding `rest` is not a decimal digit. -/
def StopsDigits (rest : List Char) : Prop := isdigit (firstChar rest) = false

instance (rest : List Char) : Decidable (StopsDigits rest) := by
  unfold StopsDigits; infer_instance

/-- The character under a cursor holding `rest` ends a plain integer literal: it is not a
digit, not a dot and not an exponent marker. -/
def EndsLiteral (rest : List Char) : Prop :=
  isdigit (firstChar rest) = false ∧ firstChar rest ≠ '.' ∧
    firstChar rest ≠ 'E' ∧ firstChar rest ≠ 'e'

instance (rest : List Char) : Decidable (EndsLiteral rest) := by
  unfold EndsLiteral; infer_instance


/-- The text of the fraction part for fraction digits `f`: absent when `f` is empty. -/
def fractionText (f : List Char) : List Char := if f = [] then [] else '.' :: f

/-- The watermark test of `compute_integer_value` fires on the digits: the loop is entered and
ends with the accumulated value below the previous one. -/
def watermark_fires (digits : List Char) : Bool :=
  digits ≠ [] && decide ((accumulate digits 0 (-1)).1 < (accumulate digits 0 (-1)).2)

/-- The integer returned by `compute_integer_value` (it does not depend on the token). -/
def returned_value (digits : List Char) : Int :=
  (compute_integer_value (Token.fresh Unit) digits).2

/-- The exponent sign in force after an optional sign `sg` (no sign means plus). -/
def signOf : List Char → Char
  | [] => '+'
  | c :: _ => c

/-- The outcome of a scan: the final token type and value. -/
def outcome {F : Type} (r : Token F × Source) : TokenType × Option (DataValue F) :=
  (r.1.type, r.1.value)

/-- A variant of `extract_exponent` in which the condition `!saw_dot_dot` is removed from the
exponent test (lines 73 to 118 with line 76 reading
`if ((current_ch == 'E') || (current_ch == 'e'))`). -/
def extract_exponent_unguarded {D F : Type} (ops : FloatOps D F) (tok : Token F) (src : Source)
    (whole_digits fraction_digits : List Char) : Token F × Source :=
  let current_ch := src.current_char
  if current_ch = 'E' || current_ch = 'e' then
    let tok := { tok with type := .JT_DOUBLE, text := tok.text ++ [current_ch] }
    let src := src.next_char
    let current_ch := src.current_char
    if current_ch = '+' || current_ch = '-' then
      let tok := { tok with text := tok.text ++ [current_ch] }
      let exponent_sign := current_ch
      let src := src.next_char
      let r := unsigned_integer_digits tok src
      compute_value ops r.2.1 r.2.2 whole_digits fraction_digits r.1 exponent_sign
    else
      let r := unsigned_integer_digits tok src
      compute_value ops r.2.1 r.2.2 whole_digits fraction_digits r.1 '+'
  else compute_value ops tok src whole_digits fraction_digits [] '+'

/-- A variant of `extract` whose exponent step does not consult `saw_dot_dot`. -/
def extract_unguarded {D F : Type} (ops : FloatOps D F) (tok : Token F) (src : Source) :
    Token F × Source :=
  let tok := { tok with type := .JT_INTEGER }
  let r := unsigned_integer_digits tok src
  let whole_digits := r.1
  let tok := r.2.1
  let src := r.2.2
  if tok.type = .JT_ERROR then (tok, src)
  else
    let current_ch := src.current_char
    if current_ch = '.' then
      if src.peek_char = '.' then
        extract_exponent_unguarded ops tok src whole_digits []
      else
        let tok := { tok with type := .JT_DOUBLE, text := tok.text ++ [current_ch] }
        let src := src.next_char
        let r := unsigned_integer_digits tok src
        if r.2.1.type = .JT_ERROR then (r.2.1, r.2.2)
        else extract_exponent_unguarded ops r.2.1 r.2.2 whole_digits r.1
    else extract_exponent_unguarded ops tok src whole_digits []

/-- The exact decimal value denoted by a real literal with whole digits `w`, fraction digits
`f` and (signed) exponent `E`: the digits of `w ++ f` read in base ten, scaled by
`10 ^ (E - length f)`. -/
def denotation (w f : List Char) (E : Int) : ℚ :=
  (natValue (w ++ f) : ℚ) * (10 : ℚ) ^ (E - (f.length : Int))

/-- The exponent part of a literal: absent, or a marker, an optional sign and at least one
digit. -/
def IsExponentPart (ex : List Char) : Prop :=
  ex = [] ∨ ∃ m sg e, ex = m :: (sg ++ e) ∧ (m = 'E' ∨ m = 'e') ∧
    (sg = [] ∨ sg = ['+'] ∨ sg = ['-']) ∧ e ≠ [] ∧ IsDigits e

/-- The literal grammar of the scanner: at least one whole digit, then optionally a dot with
at least one fraction digit, then optionally an exponent part. -/
def IsLiteral (p : List Char) : Prop :=
  ∃ w f ex, p = w ++ (fractionText f ++ ex) ∧ w ≠ [] ∧ IsDigits w ∧ IsDigits f ∧
    IsExponentPart ex

/-- The ways a run of `extract` can go, by the shape of the characters under the cursor:
no digit at all; an integer literal; a dot without fraction digits; a real literal without
exponent; an exponent marker without exponent digits; a real literal with exponent. Each case
gives the result of `extract` for a token `tok` and a cursor at position `pos`. -/
inductive Scanned {D F : Type} (ops : FloatOps D F) (tok : Token F) (pos : Nat) :
    List Char → Token F × Source → Prop where
  | no_digits (rest : List Char) (hr : StopsDigits rest) :
    Scanned ops tok pos rest
      (⟨.JT_ERROR, tok.text, some (.code .INVALID_NUMBER)⟩, ⟨rest, pos⟩)
  | integer (w rest : List Char) (hne : w ≠ []) (hw : IsDigits w)
      (hr : EndsLiteral rest ∨ (firstChar rest = '.' ∧ firstChar rest.tail = '.')) :
    Scanned ops tok pos (w ++ rest)
      (compute_value ops ⟨.JT_INTEGER, tok.text ++ w, tok.value⟩ ⟨rest, pos + w.length⟩
        w [] [] '+')
  | no_fraction (w rest : List Char) (hne : w ≠ []) (hw : IsDigits w) (hr : StopsDigits rest)
      (hdot : firstChar rest ≠ '.') :
    Scanned ops tok pos (w ++ '.' :: rest)
      (⟨.JT_ERROR, tok.text ++ w ++ ['.'], some (.code .INVALID_NUMBER)⟩,
        ⟨rest, pos + w.length + 1⟩)
  | real (w f rest : List Char) (hne : w ≠ []) (hw : IsDigits w) (hfne : f ≠ [])
      (hf : IsDigits f) (hr : StopsDigits rest) (hE : firstChar rest ≠ 'E')
      (he : firstChar rest ≠ 'e') :
    Scanned ops tok pos (w ++ (fractionText f ++ rest))
      (compute_value ops ⟨.JT_DOUBLE, tok.text ++ w ++ fractionText f, tok.value⟩
        ⟨rest, pos + w.length + (fractionText f).length⟩ w f [] '+')
  | no_exponent (w f : List Char) (m : Char) (sg rest : List Char) (hne : w ≠ [])
      (hw : IsDigits w) (hf : IsDigits f) (hm : m = 'E' ∨ m = 'e')
      (hsg : sg = [] ∨ sg = ['+'] ∨ sg = ['-']) (hr : StopsDigits rest)
      (hns : sg = [] → firstChar rest ≠ '+' ∧ firstChar rest ≠ '-') :
    Scanned ops tok pos (w ++ (fractionText f ++ (m :: (sg ++ rest))))
      (⟨.JT_ERROR, tok.text ++ w ++ fractionText f ++ m :: sg,
          some (.code .INVALID_NUMBER)⟩,
        ⟨rest, pos + w.length + (fractionText f).length + 1 + sg.length⟩)
  | real_exponent (w f : List Char) (m : Char) (sg e rest : List Char) (hne : w ≠ [])
      (hw : IsDigits w) (hf : IsDigits f) (hm : m = 'E' ∨ m = 'e')
      (hsg : sg = [] ∨ sg = ['+'] ∨ sg = ['-']) (hene : e ≠ []) (he : IsDigits e)
      (hr : StopsDigits rest) :
    Scanned ops tok pos (w ++ (fractionText f ++ (m :: (sg ++ (e ++ rest)))))
      (compute_value ops
        ⟨.JT_DOUBLE, tok.text ++ w ++ fractionText f ++ [m] ++ sg ++ e, tok.value⟩
        ⟨rest, pos + w.length + (fractionText f).length + 1 + sg.length + e.length⟩
        w f e (signOf sg))

/-! ## Basic facts -/

theorem isdigit_bounds {c : Char} (h : isdigit c = true) : 48 ≤ c.toNat ∧ c.toNat ≤ 57 := by
  unfold isdigit Char.isDigit at h
  simp only [Bool.and_eq_true, decide_eq_true_eq] at h
  exact ⟨h.1, h.2⟩

theorem firstChar_cons (c : Char) (cs : List Char) : firstChar (c :: cs) = c := rfl

theorem not_isdigit_END_OF_FILE : isdigit END_OF_FILE = false := by decide

theorem digits_loop_run (w rest : List Char) (hw : IsDigits w) (hr : StopsDigits rest)
    (pos : Nat) (text digits : List Char) :
    digits_loop (w ++ rest) pos text digits = (text ++ w, digits ++ w, ⟨rest, pos + w.length⟩) := by
  induction w generalizing pos text digits with
  | nil =>
    cases rest with
    | nil => simp [digits_loop]
    | cons c cs =>
      have hc : isdigit c = false := by simpa [StopsDigits, firstChar] using hr
      simp [digits_loop, hc]
  | cons c cs ih =>
    have hc : isdigit c = true := hw c (List.mem_cons_self c cs)
    have hcs : IsDigits cs := fun d hd => hw d (List.mem_cons_of_mem c hd)
    rw [List.cons_append]
    simp only [digits_loop, hc, if_true]
    rw [ih hcs]
    simp [Nat.add_assoc, Nat.add_comm 1]

theorem unsigned_integer_digits_run {F : Type} (tok : Token F) (w rest : List Char) (pos : Nat)
    (hne : w ≠ []) (hw : IsDigits w) (hr : StopsDigits rest) :
    unsigned_integer_digits tok ⟨w ++ rest, pos⟩ =
      (w, { tok with text := tok.text ++ w }, ⟨rest, pos + w.length⟩) := by
  cases w with
  | nil => exact absurd rfl hne
  | cons c cs =>
    have hc : isdigit c = true := hw c (List.mem_cons_self c cs)
    have h := digits_loop_run (c :: cs) rest hw hr pos tok.text []
    simp only [unsigned_integer_digits, Source.current_char, List.cons_append, firstChar,
      hc, Bool.not_true, Bool.false_eq_true, if_false]
    rw [List.cons_append] at h
    rw [h]
    simp

theorem unsigned_integer_digits_fail {F : Type} (tok : Token F) (rest : List Char) (pos : Nat)
    (hr : StopsDigits rest) :
    unsigned_integer_digits tok ⟨rest, pos⟩ =
      ([], { tok with type := .JT_ERROR, value := some (.code .INVALID_NUMBER) }, ⟨rest, pos⟩) := by
  unfold StopsDigits at hr
  simp only [unsigned_integer_digits, Source.current_char, hr, Bool.not_false, if_true]

/-! ## Integer accumulation -/

theorem wrap32_of_fits {x : Int} (hlo : -2147483648 ≤ x) (hhi : x ≤ 2147483647) :
    wrap32 x = x := by
  unfold wrap32
  omega

theorem foldl_value_ge (digits : List Char) (n : Nat) :
    n ≤ digits.foldl (fun n c => 10 * n + (c.toNat - 48)) n := by
  induction digits generalizing n with
  | nil => simp
  | cons c cs ih =>
    simp only [List.foldl_cons]
    exact le_trans (by omega) (ih (10 * n + (c.toNat - 48)))

theorem accumulate_fits (digits : List Char) (hd : IsDigits digits) (n : Nat) (prev : Int)
    (hprev : prev ≤ (n : Int))
    (hfit : digits.foldl (fun n c => 10 * n + (c.toNat - 48)) n ≤ 2147483647) :
    (accumulate digits n prev).1 = ((digits.foldl (fun n c => 10 * n + (c.toNat - 48)) n : Nat) : Int)
      ∧ (accumulate digits n prev).2 ≤ (accumulate digits n prev).1 := by
  induction digits generalizing n prev with
  | nil => simpa [accumulate] using hprev
  | cons c cs ih =>
    have hc := isdigit_bounds (hd c (List.mem_cons_self c cs))
    have hcs : IsDigits cs := fun d hd2 => hd d (List.mem_cons_of_mem c hd2)
    simp only [List.foldl_cons] at hfit ⊢
    have hge := foldl_value_ge cs (10 * n + (c.toNat - 48))
    have hstep : wrap32 (10 * (n : Int) + digitOf c) = ((10 * n + (c.toNat - 48) : Nat) : Int) := by
      rw [wrap32_of_fits] <;> unfold digitOf <;> omega
    have hcond : (n : Int) ≥ prev := hprev
    simp only [accumulate, hcond, if_true, hstep]
    exact ih hcs (10 * n + (c.toNat - 48)) (n : Int) (by omega) hfit

theorem compute_integer_value_fits {F : Type} (tok : Token F) (digits : List Char)
    (hd : IsDigits digits) (hfit : natValue digits ≤ 2147483647) :
    compute_integer_value tok digits = (tok, (natValue digits : Int)) := by
  unfold compute_integer_value
  by_cases he : digits = []
  · simp [he, natValue]
  · have h := accumulate_fits digits hd 0 (-1) (by omega) hfit
    have h1 : (accumulate digits 0 (-1)).1 = (natValue digits : Int) := by
      simpa [natValue] using h.1
    have h2 : (accumulate digits 0 (-1)).1 ≥ (accumulate digits 0 (-1)).2 := by
      simpa using h.2
    rw [if_neg he]
    dsimp only
    rw [if_pos h2, h1]

theorem accumulate_stopped (digits : List Char) (v prev : Int) (h : v < prev) :
    accumulate digits v prev = (v, prev) := by
  cases digits with
  | nil => rfl
  | cons c cs =>
    have : ¬ v ≥ prev := by omega
    simp only [accumulate, this, if_false]

theorem accumulate_append (a b : List Char) (v prev : Int)
    (h : (accumulate a v prev).1 < (accumulate a v prev).2) :
    accumulate (a ++ b) v prev = accumulate a v prev := by
  induction a generalizing v prev with
  | nil =>
    simp only [accumulate] at h
    simpa [accumulate] using accumulate_stopped b v prev h
  | cons c cs ih =>
    by_cases hc : v ≥ prev
    · simp only [List.cons_append, accumulate, hc, if_true] at h ⊢
      exact ih _ _ h
    · simp only [List.cons_append, accumulate, hc, if_false]

/-! ## The steps of extract on a literal of known shape -/

theorem extract_whole {D F : Type} (ops : FloatOps D F) (tok : Token F) (w rest : List Char)
    (pos : Nat) (hne : w ≠ []) (hw : IsDigits w) (hr : StopsDigits rest) :
    extract ops tok ⟨w ++ rest, pos⟩ =
      if firstChar rest = '.' then
        if firstChar rest.tail = '.' then
          extract_exponent ops ⟨.JT_INTEGER, tok.text ++ w, tok.value⟩ ⟨rest, pos + w.length⟩
            w [] true
        else
          if (unsigned_integer_digits
              (⟨.JT_DOUBLE, tok.text ++ w ++ ['.'], tok.value⟩ : Token F)
              ⟨rest.tail, pos + w.length + 1⟩).2.1.type = .JT_ERROR then
            ((unsigned_integer_digits
              (⟨.JT_DOUBLE, tok.text ++ w ++ ['.'], tok.value⟩ : Token F)
              ⟨rest.tail, pos + w.length + 1⟩).2.1,
             (unsigned_integer_digits
              (⟨.JT_DOUBLE, tok.text ++ w ++ ['.'], tok.value⟩ : Token F)
              ⟨rest.tail, pos + w.length + 1⟩).2.2)
          else
            extract_exponent ops
              (unsigned_integer_digits
                (⟨.JT_DOUBLE, tok.text ++ w ++ ['.'], tok.value⟩ : Token F)
                ⟨rest.tail, pos + w.length + 1⟩).2.1
              (unsigned_integer_digits
                (⟨.JT_DOUBLE, tok.text ++ w ++ ['.'], tok.value⟩ : Token F)
                ⟨rest.tail, pos + w.length + 1⟩).2.2
              w
              (unsigned_integer_digits
                (⟨.JT_DOUBLE, tok.text ++ w ++ ['.'], tok.value⟩ : Token F)
                ⟨rest.tail, pos + w.length + 1⟩).1
              false
      else
        extract_exponent ops ⟨.JT_INTEGER, tok.text ++ w, tok.value⟩ ⟨rest, pos + w.length⟩
          w [] false := by
  unfold extract
  simp only [unsigned_integer_digits_run _ w rest pos hne hw hr]
  simp only [Source.current_char, Source.peek_char, Source.next_char]
  have hty : ¬ (TokenType.JT_INTEGER = TokenType.JT_ERROR) := by decide
  by_cases h1 : firstChar rest = '.'
  · by_cases h2 : firstChar rest.tail = '.'
    · simp only [h1, h2, hty, if_true, if_false]
    · simp only [h1, h2, hty, if_true, if_false]
  · simp only [h1, hty, if_false]

theorem extract_exponent_none {D F : Type} (ops : FloatOps D F) (tok : Token F) (src : Source)
    (w f : List Char) (saw_dot_dot : Bool)
    (h : saw_dot_dot = true ∨ (firstChar src.chars ≠ 'E' ∧
      firstChar src.chars ≠ 'e')) :
    extract_exponent ops tok src w f saw_dot_dot = compute_value ops tok src w f [] '+' := by
  unfold extract_exponent
  rcases h with h | h
  · simp [h]
  · simp [Source.current_char, h.1, h.2]

theorem compute_value_integer {D F : Type} (ops : FloatOps D F) (tok : Token F) (src : Source)
    (w f e : List Char) (sign : Char) (ht : tok.type = .JT_INTEGER) (hw : IsDigits w)
    (hfit : natValue w ≤ 2147483647) :
    compute_value ops tok src w f e sign =
      (⟨.JT_INTEGER, tok.text, some (.int (natValue w))⟩, src) := by
  unfold compute_value
  rw [if_pos ht, compute_integer_value_fits tok w hw hfit]
  simp [ht]

theorem extract_integer_run {D F : Type} (ops : FloatOps D F) (tok : Token F)
    (w rest : List Char) (pos : Nat) (hne : w ≠ []) (hw : IsDigits w)
    (hfit : natValue w ≤ 2147483647)
    (hr : EndsLiteral rest ∨ (firstChar rest = '.' ∧ firstChar rest.tail = '.')) :
    extract ops tok ⟨w ++ rest, pos⟩ =
      (⟨.JT_INTEGER, tok.text ++ w, some (.int (natValue w))⟩, ⟨rest, pos + w.length⟩) := by
  have hstop : StopsDigits rest := by
    rcases hr with h | h
    · exact h.1
    · unfold StopsDigits; rw [h.1]; decide
  rw [extract_whole ops tok w rest pos hne hw hstop]
  rcases hr with h | h
  · rw [if_neg h.2.1, extract_exponent_none ops _ _ w [] false (Or.inr ⟨h.2.2.1, h.2.2.2⟩),
      compute_value_integer ops _ _ w [] [] _ rfl hw hfit]
  · rw [if_pos h.1, if_pos h.2, extract_exponent_none ops _ _ w [] true (Or.inl rfl),
      compute_value_integer ops _ _ w [] [] _ rfl hw hfit]

theorem compute_integer_value_flagged {F : Type} (tok : Token F) (digits : List Char)
    (hne : digits ≠ []) (h : (accumulate digits 0 (-1)).1 < (accumulate digits 0 (-1)).2) :
    compute_integer_value tok digits =
      ({ tok with type := .JT_ERROR, value := some (.code .RANGE_INTEGER) }, 0) := by
  have hn : ¬ ((accumulate digits 0 (-1)).1 ≥ (accumulate digits 0 (-1)).2) := by omega
  unfold compute_integer_value
  rw [if_neg hne]
  dsimp only
  rw [if_neg hn]

theorem isDigits_replicate_nine (n : Nat) : IsDigits (List.replicate n '9') := by
  intro c hc
  rw [List.eq_of_mem_replicate hc]
  decide

theorem accumulate_nines (n : Nat) (hn : 11 ≤ n) :
    accumulate (List.replicate n '9') 0 (-1) = accumulate (List.replicate 11 '9') 0 (-1) := by
  obtain ⟨k, rfl⟩ := Nat.exists_eq_add_of_le hn
  rw [List.replicate_add]
  exact accumulate_append _ _ _ _ (by decide)

theorem extract_mantissa {D F : Type} (ops : FloatOps D F) (tok : Token F)
    (w f rest : List Char) (pos : Nat) (hne : w ≠ []) (hw : IsDigits w) (hf : IsDigits f)
    (hr : StopsDigits rest) (hdot : f = [] → firstChar rest ≠ '.') :
    extract ops tok ⟨w ++ (fractionText f ++ rest), pos⟩ =
      extract_exponent ops
        ⟨if f = [] then .JT_INTEGER else .JT_DOUBLE, tok.text ++ w ++ fractionText f, tok.value⟩
        ⟨rest, pos + w.length + (fractionText f).length⟩ w f false := by
  by_cases hfe : f = []
  · subst hfe
    have hd := hdot rfl
    simp only [fractionText, if_true, List.nil_append, List.append_nil, List.length_nil,
      Nat.add_zero]
    rw [extract_whole ops tok w rest pos hne hw hr, if_neg hd]
  · have hstop : StopsDigits ('.' :: (f ++ rest)) := by
      show isdigit '.' = false
      decide
    have h1 : firstChar ('.' :: (f ++ rest)) = '.' := rfl
    have h2 : ¬ (firstChar ('.' :: (f ++ rest)).tail = '.') := by
      cases f with
      | nil => exact absurd rfl hfe
      | cons c cs =>
        have hc : isdigit c = true := hf c (List.mem_cons_self c cs)
        intro h
        have h3 : c = '.' := h
        rw [h3] at hc
        exact absurd hc (by decide)
    simp only [fractionText, if_neg hfe, List.cons_append, List.length_cons]
    rw [extract_whole ops tok w ('.' :: (f ++ rest)) pos hne hw hstop, if_pos h1, if_neg h2]
    simp only [List.tail_cons, unsigned_integer_digits_run _ f rest _ hfe hf hr]
    have hty : ¬ (TokenType.JT_DOUBLE = TokenType.JT_ERROR) := by decide
    rw [if_neg hty]
    simp [Nat.add_assoc, Nat.add_comm 1]

theorem extract_exponent_marker {D F : Type} (ops : FloatOps D F) (tok : Token F)
    (m : Char) (rest : List Char) (pos : Nat) (w f : List Char) (hm : m = 'E' ∨ m = 'e') :
    extract_exponent ops tok ⟨m :: rest, pos⟩ w f false =
      if firstChar rest = '+' ∨ firstChar rest = '-' then
        compute_value ops
          (unsigned_integer_digits
            (⟨.JT_DOUBLE, tok.text ++ [m] ++ [firstChar rest], tok.value⟩ : Token F)
            ⟨rest.tail, pos + 1 + 1⟩).2.1
          (unsigned_integer_digits
            (⟨.JT_DOUBLE, tok.text ++ [m] ++ [firstChar rest], tok.value⟩ : Token F)
            ⟨rest.tail, pos + 1 + 1⟩).2.2
          w f
          (unsigned_integer_digits
            (⟨.JT_DOUBLE, tok.text ++ [m] ++ [firstChar rest], tok.value⟩ : Token F)
            ⟨rest.tail, pos + 1 + 1⟩).1
          (firstChar rest)
      else
        compute_value ops
          (unsigned_integer_digits
            (⟨.JT_DOUBLE, tok.text ++ [m], tok.value⟩ : Token F) ⟨rest, pos + 1⟩).2.1
          (unsigned_integer_digits
            (⟨.JT_DOUBLE, tok.text ++ [m], tok.value⟩ : Token F) ⟨rest, pos + 1⟩).2.2
          w f
          (unsigned_integer_digits
            (⟨.JT_DOUBLE, tok.text ++ [m], tok.value⟩ : Token F) ⟨rest, pos + 1⟩).1
          '+' := by
  unfold extract_exponent
  have hc : (!false && (decide (m = 'E') || decide (m = 'e'))) = true := by
    rcases hm with h | h <;> subst h <;> rfl
  simp only [Source.current_char, Source.next_char, firstChar_cons, hc, if_true, List.tail_cons,
    Bool.or_eq_true, decide_eq_true_eq]

theorem marker_stops (m : Char) (rest : List Char) (hm : m = 'E' ∨ m = 'e') :
    StopsDigits (m :: rest) ∧ firstChar (m :: rest) ≠ '.' := by
  unfold StopsDigits
  rw [firstChar_cons]
  rcases hm with h | h <;> subst h <;> exact ⟨by decide, by decide⟩

theorem compute_value_error {D F : Type} (ops : FloatOps D F) (tok : Token F) (src : Source)
    (w f e : List Char) (sign : Char) (ht : tok.type = .JT_ERROR) :
    compute_value ops tok src w f e sign = (tok, src) := by
  unfold compute_value
  rw [ht]
  have h1 : ¬ (TokenType.JT_ERROR = TokenType.JT_INTEGER) := by decide
  have h2 : ¬ (TokenType.JT_ERROR = TokenType.JT_DOUBLE) := by decide
  rw [if_neg h1, if_neg h2]

/-! ## Real values -/

theorem compute_integer_value_eq {F : Type} (tok : Token F) (digits : List Char) :
    compute_integer_value tok digits =
      (if watermark_fires digits = true then
          { tok with type := .JT_ERROR, value := some (.code .RANGE_INTEGER) }
        else tok, returned_value digits) := by
  unfold returned_value watermark_fires compute_integer_value
  by_cases he : digits = []
  · simp [he]
  · by_cases h : (accumulate digits 0 (-1)).1 ≥ (accumulate digits 0 (-1)).2
    · have hn : ¬ ((accumulate digits 0 (-1)).1 < (accumulate digits 0 (-1)).2) := by omega
      simp [he, h, hn]
    · have hn : (accumulate digits 0 (-1)).1 < (accumulate digits 0 (-1)).2 := by omega
      simp [he, h, hn]

theorem accumulate_nonneg (digits : List Char) (v prev : Int) (hinv : v ≥ prev → 0 ≤ v)
    (h : (accumulate digits v prev).1 ≥ (accumulate digits v prev).2) :
    0 ≤ (accumulate digits v prev).1 := by
  induction digits generalizing v prev with
  | nil => exact hinv h
  | cons c cs ih =>
    by_cases hc : v ≥ prev
    · simp only [accumulate, hc, if_true] at h ⊢
      exact ih _ _ (fun hge => le_trans (hinv hc) hge) h
    · simp only [accumulate, hc, if_false] at h

theorem returned_value_nonneg (digits : List Char) : 0 ≤ returned_value digits := by
  unfold returned_value compute_integer_value
  by_cases he : digits = []
  · simp [he]
  · by_cases h : (accumulate digits 0 (-1)).1 ≥ (accumulate digits 0 (-1)).2
    · rw [if_neg he]
      dsimp only
      rw [if_pos h]
      exact accumulate_nonneg digits 0 (-1) (fun _ => le_refl 0) h
    · rw [if_neg he]
      dsimp only
      rw [if_neg h]

theorem wrap32_le (x : Int) : wrap32 x ≤ 2147483647 := by
  unfold wrap32
  omega

theorem accumulate_le (digits : List Char) (v prev : Int) (hv : v ≤ 2147483647) :
    (accumulate digits v prev).1 ≤ 2147483647 := by
  induction digits generalizing v prev with
  | nil => exact hv
  | cons c cs ih =>
    by_cases hc : v ≥ prev
    · simp only [accumulate, hc, if_true]
      exact ih _ _ (wrap32_le _)
    · simp only [accumulate, hc, if_false]
      exact hv

theorem returned_value_le (digits : List Char) : returned_value digits ≤ 2147483647 := by
  unfold returned_value compute_integer_value
  by_cases he : digits = []
  · simp [he]
  · rw [if_neg he]
    dsimp only
    split
    · exact accumulate_le digits 0 (-1) (by omega)
    · show (0 : Int) ≤ 2147483647
      omega

theorem returned_value_fits (digits : List Char) (hd : IsDigits digits)
    (hfit : natValue digits ≤ 2147483647) : returned_value digits = (natValue digits : Int) := by
  unfold returned_value
  rw [compute_integer_value_fits _ digits hd hfit]

theorem adjust_exponent_exact (E : Int) (f : List Char) (s : Char) (h0 : 0 ≤ E)
    (hb : E + (f.length : Int) ≤ 2147483647) :
    adjust_exponent E f s = (if s = '-' then -E else E) - (f.length : Int) := by
  unfold adjust_exponent
  by_cases hs : s = '-'
  · by_cases hf : f = []
    · subst hf
      simp only [hs, if_true, ne_eq, not_true_eq_false, if_false, List.length_nil,
        Nat.cast_zero, sub_zero]
      exact wrap32_of_fits (by omega) (by simp at hb; omega)
    · simp only [hs, if_true, ne_eq, hf, not_false_eq_true]
      rw [wrap32_of_fits (x := -E) (by omega) (by omega)]
      exact wrap32_of_fits (by omega) (by omega)
  · by_cases hf : f = []
    · subst hf
      simp [hs]
    · simp only [hs, if_false, ne_eq, hf, not_false_eq_true, if_true]
      exact wrap32_of_fits (by omega) (by omega)

theorem abs32_eq_abs (x : Int) (hlo : -2147483647 ≤ x) (hhi : x ≤ 2147483647) :
    abs32 x = |x| := by
  unfold abs32
  by_cases h : x < 0
  · rw [if_pos h, abs_of_neg h]
    exact wrap32_of_fits (by omega) (by omega)
  · rw [if_neg h, abs_of_nonneg (by omega)]
    exact wrap32_of_fits (by omega) (by omega)

theorem range_test_exact (E : Int) (w f : List Char) (s : Char) (h0 : 0 ≤ E)
    (hb : E + (f.length : Int) + (w.length : Int) ≤ 2147483647) :
    abs32 (wrap32 (adjust_exponent E f s + wrap32 (w.length : Int))) =
      |(if s = '-' then -E else E) - (f.length : Int) + (w.length : Int)| := by
  rw [adjust_exponent_exact E f s h0 (by omega), wrap32_of_fits (x := (w.length : Int))
    (by omega) (by omega)]
  by_cases hs : s = '-'
  · simp only [hs, if_true]
    rw [wrap32_of_fits (by omega) (by omega)]
    exact abs32_eq_abs _ (by omega) (by omega)
  · simp only [hs, if_false]
    rw [wrap32_of_fits (by omega) (by omega)]
    exact abs32_eq_abs _ (by omega) (by omega)

theorem compute_value_double {D F : Type} (ops : FloatOps D F) (tok : Token F) (src : Source)
    (w f e : List Char) (sign : Char) (ht : tok.type = .JT_DOUBLE) :
    compute_value ops tok src w f e sign =
      if (compute_float_value ops tok w f e sign).1.type ≠ .JT_ERROR then
        ({ (compute_float_value ops tok w f e sign).1 with
            value := some (.float (compute_float_value ops tok w f e sign).2) }, src)
      else ((compute_float_value ops tok w f e sign).1, src) := by
  unfold compute_value
  have h1 : ¬ (tok.type = TokenType.JT_INTEGER) := by rw [ht]; decide
  rw [if_neg h1, if_pos ht]

theorem extract_with_exponent {D F : Type} (ops : FloatOps D F) (tok : Token F)
    (w f : List Char) (m : Char) (sg e rest : List Char) (pos : Nat)
    (hne : w ≠ []) (hw : IsDigits w) (hf : IsDigits f) (hm : m = 'E' ∨ m = 'e')
    (hsg : sg = [] ∨ sg = ['+'] ∨ sg = ['-']) (hene : e ≠ []) (he : IsDigits e)
    (hr : StopsDigits rest) :
    extract ops tok ⟨w ++ (fractionText f ++ (m :: (sg ++ (e ++ rest)))), pos⟩ =
      compute_value ops
        ⟨.JT_DOUBLE, tok.text ++ w ++ fractionText f ++ [m] ++ sg ++ e, tok.value⟩
        ⟨rest, pos + w.length + (fractionText f).length + 1 + sg.length + e.length⟩
        w f e (signOf sg) := by
  have hms := marker_stops m (sg ++ (e ++ rest)) hm
  rw [extract_mantissa ops _ w f _ pos hne hw hf hms.1 (fun _ => hms.2),
    extract_exponent_marker ops _ m _ _ w f hm]
  rcases hsg with h | h | h
  · subst h
    have hno : ¬ (firstChar ([] ++ (e ++ rest)) = '+' ∨ firstChar ([] ++ (e ++ rest)) = '-') := by
      cases e with
      | nil => exact absurd rfl hene
      | cons c cs =>
        have hc : isdigit c = true := he c (List.mem_cons_self c cs)
        simp only [List.nil_append, List.cons_append, firstChar_cons]
        rintro (h | h) <;> rw [h] at hc <;> exact absurd hc (by decide)
    rw [if_neg hno]
    simp only [List.nil_append, unsigned_integer_digits_run _ e rest _ hene he hr, signOf,
      List.append_nil, List.length_nil, Nat.add_zero]
  · subst h
    have hyes : firstChar (['+'] ++ (e ++ rest)) = '+' ∨ firstChar (['+'] ++ (e ++ rest)) = '-' :=
      Or.inl rfl
    rw [if_pos hyes]
    simp only [List.singleton_append, List.tail_cons, firstChar_cons,
      unsigned_integer_digits_run _ e rest _ hene he hr, signOf, List.length_singleton]
  · subst h
    have hyes : firstChar (['-'] ++ (e ++ rest)) = '+' ∨ firstChar (['-'] ++ (e ++ rest)) = '-' :=
      Or.inr rfl
    rw [if_pos hyes]
    simp only [List.singleton_append, List.tail_cons, firstChar_cons,
      unsigned_integer_digits_run _ e rest _ hene he hr, signOf, List.length_singleton]

theorem compute_float_value_eq {D F : Type} (ops : FloatOps D F) (tok : Token F)
    (w f e : List Char) (s : Char) :
    compute_float_value ops tok w f e s =
      if abs32 (wrap32 (adjust_exponent (returned_value e) f s + wrap32 (w.length : Int)))
          > MAX_EXPONENT then
        ({ tok with type := .JT_ERROR, value := some (.code .RANGE_REAL) },
          ops.narrow (ops.ofInt 0))
      else
        (if watermark_fires e = true then
            { tok with type := .JT_ERROR, value := some (.code .RANGE_INTEGER) }
          else tok,
         ops.narrow
          (if adjust_exponent (returned_value e) f s ≠ 0 then
            ops.mul (mantissa ops (if f ≠ [] then w ++ f else w))
              (ops.pow10 (adjust_exponent (returned_value e) f s))
          else mantissa ops (if f ≠ [] then w ++ f else w))) := by
  unfold compute_float_value
  rw [compute_integer_value_eq]
  cases watermark_fires e <;> simp

theorem outcome_compute_value_double {D F : Type} (ops : FloatOps D F)
    (text text2 : List Char) (v : Option (DataValue F)) (src src2 : Source)
    (w f e : List Char) (s : Char) :
    outcome (compute_value ops ⟨.JT_DOUBLE, text, v⟩ src w f e s) =
      outcome (compute_value ops ⟨.JT_DOUBLE, text2, v⟩ src2 w f e s) := by
  rw [compute_value_double ops _ src w f e s rfl, compute_value_double ops _ src2 w f e s rfl,
    compute_float_value_eq, compute_float_value_eq]
  by_cases hr : abs32 (wrap32 (adjust_exponent (returned_value e) f s + wrap32 (w.length : Int)))
      > MAX_EXPONENT
  · simp only [hr, if_true, outcome]
    rfl
  · by_cases hfire : watermark_fires e = true
    · simp only [hr, hfire, if_true, if_false, outcome]
      rfl
    · simp only [hr, hfire, if_false, outcome]
      rfl

theorem extract_one_e_hundred {D F : Type} (ops : FloatOps D F) :
    (extract ops (Token.fresh F) ⟨"1e100".toList, 0⟩).1 =
      ⟨.JT_ERROR, "1e100".toList, some (.code .RANGE_REAL)⟩ := by
  have h := extract_with_exponent ops (Token.fresh F) "1".toList [] 'e' [] "100".toList [] 0
    (by decide) (by decide) (by decide) (Or.inr rfl) (Or.inl rfl) (by decide) (by decide)
    (by decide)
  have hin : "1".toList ++ (fractionText [] ++ ('e' :: ([] ++ ("100".toList ++ [])))) =
      "1e100".toList := by decide
  have hc : abs32 (wrap32 (adjust_exponent (returned_value "100".toList) [] (signOf [])
      + wrap32 (("1".toList).length : Int))) > MAX_EXPONENT := by decide
  rw [hin] at h
  rw [h, compute_value_double _ _ _ _ _ _ _ rfl, compute_float_value_eq, if_pos hc]
  simp only [ne_eq, not_true_eq_false, if_false]
  rfl

theorem outcome_compute_value_real {D F : Type} (ops : FloatOps D F) (text : List Char)
    (v : Option (DataValue F)) (src : Source) (w f e : List Char) (s : Char) (X : Int)
    (hfire : watermark_fires e = false) (hX : adjust_exponent (returned_value e) f s = X)
    (hpass : ¬ (abs32 (wrap32 (X + wrap32 (w.length : Int))) > MAX_EXPONENT)) :
    outcome (compute_value ops ⟨.JT_DOUBLE, text, v⟩ src w f e s) =
      (.JT_DOUBLE, some (.float (ops.narrow
        (if X ≠ 0 then ops.mul (mantissa ops (if f ≠ [] then w ++ f else w)) (ops.pow10 X)
          else mantissa ops (if f ≠ [] then w ++ f else w))))) := by
  rw [compute_value_double _ _ _ _ _ _ _ rfl, compute_float_value_eq, hX, if_neg hpass, hfire]
  simp [outcome]

theorem extract_three_point_one_four {D F : Type} (ops : FloatOps D F) :
    extract ops (Token.fresh F) ⟨"3.14".toList, 0⟩ =
      (⟨.JT_DOUBLE, "3.14".toList,
        some (.float (ops.narrow (ops.mul (mantissa ops "314".toList) (ops.pow10 (-2)))))⟩,
        ⟨[], 4⟩) := by
  have h := extract_mantissa ops (Token.fresh F) "3".toList "14".toList [] 0
    (by decide) (by decide) (by decide) (by decide) (by decide)
  have hin : "3".toList ++ (fractionText "14".toList ++ []) = "3.14".toList := by decide
  have hX : adjust_exponent (returned_value []) "14".toList '+' = -2 := by decide
  have hfire : watermark_fires [] = false := by decide
  have hpass : ¬ (abs32 (wrap32 (-2 + wrap32 (("3".toList).length : Int))) > MAX_EXPONENT) := by
    decide
  rw [hin] at h
  rw [h, extract_exponent_none ops _ _ _ _ false (Or.inr ⟨by decide, by decide⟩)]
  have hty : (if "14".toList = [] then TokenType.JT_INTEGER else TokenType.JT_DOUBLE)
      = TokenType.JT_DOUBLE := by decide
  rw [hty, compute_value_double _ _ _ _ _ _ _ rfl, compute_float_value_eq, hX, if_neg hpass,
    hfire]
  have hd : (if "14".toList ≠ [] then "3".toList ++ "14".toList else "3".toList)
      = "314".toList := by decide
  rw [hd]
  have htext : [] ++ "3".toList ++ fractionText "14".toList = "3.14".toList := by decide
  have hpos : 0 + ("3".toList).length + (fractionText "14".toList).length = 4 := by decide
  simp only [Token.fresh, htext, hpos]
  simp

theorem extract_minus_max_exponent {D F : Type} (ops : FloatOps D F) :
    extract ops (Token.fresh F) ⟨"1.00e-2147483647".toList, 0⟩ =
      (⟨.JT_DOUBLE, "1.00e-2147483647".toList,
        some (.float (ops.narrow (ops.mul (mantissa ops "100".toList)
          (ops.pow10 2147483647))))⟩, ⟨[], 16⟩) := by
  have h := extract_with_exponent ops (Token.fresh F) "1".toList "00".toList 'e' ['-']
    "2147483647".toList [] 0 (by decide) (by decide) (by decide) (Or.inr rfl)
    (Or.inr (Or.inr rfl)) (by decide) (by decide) (by decide)
  have hin : "1".toList ++ (fractionText "00".toList ++
      ('e' :: (['-'] ++ ("2147483647".toList ++ [])))) = "1.00e-2147483647".toList := by decide
  have hX : adjust_exponent (returned_value "2147483647".toList) "00".toList (signOf ['-'])
      = 2147483647 := by decide
  have hpass : ¬ (abs32 (wrap32 (2147483647 + wrap32 (("1".toList).length : Int)))
      > MAX_EXPONENT) := by decide
  have hfire : watermark_fires "2147483647".toList = false := by decide
  have hd : (if "00".toList ≠ [] then "1".toList ++ "00".toList else "1".toList)
      = "100".toList := by decide
  have htext : [] ++ "1".toList ++ fractionText "00".toList ++ ['e'] ++ ['-'] ++
      "2147483647".toList = "1.00e-2147483647".toList := by decide
  have hpos : 0 + ("1".toList).length + (fractionText "00".toList).length + 1 +
      (['-'] : List Char).length + ("2147483647".toList).length = 16 := by decide
  rw [hin] at h
  rw [h, compute_value_double _ _ _ _ _ _ _ rfl, compute_float_value_eq, hX, if_neg hpass,
    hfire, hd]
  simp only [Token.fresh, htext, hpos]
  simp

/-! ## Claims -/

/-- C1 (evaluation at the failing input): on the ten digits 9999999999, whose value exceeds
2147483647, the wraparound accumulation ends at 1410065407 above the previous value 999999999,
so compute_integer_value returns 1410065407 and leaves the token untouched: no
integer-out-of-range error is set. -/
theorem compute_integer_value_misses_overflow {F : Type} (tok : Token F) :
    natValue "9999999999".toList = 9999999999 ∧
      accumulate "9999999999".toList 0 (-1) = (1410065407, 999999999) ∧
      compute_integer_value tok "9999999999".toList = (tok, 1410065407) := by
  refine ⟨by decide, by decide, ?_⟩
  have h : accumulate "9999999999".toList 0 (-1) = (1410065407, 999999999) := by decide
  have hne : ¬ ("9999999999".toList = []) := by decide
  unfold compute_integer_value
  rw [if_neg hne]
  dsimp only
  rw [h]
  simp

/-- C3: a non-empty digit run w whose value fits 32 bits, followed by two dots and anything,
is scanned as Integer(value of w) with text w; the cursor has advanced by length(w) and still
holds both dots, so its current character is the first dot. -/
theorem extract_range_operator_unconsumed {D F : Type} (ops : FloatOps D F)
    (w more : List Char) (pos : Nat) (hne : w ≠ []) (hw : IsDigits w)
    (hfit : natValue w ≤ 2147483647) :
    extract ops (Token.fresh F) ⟨w ++ '.' :: '.' :: more, pos⟩ =
        (⟨.JT_INTEGER, w, some (.int (natValue w))⟩, ⟨'.' :: '.' :: more, pos + w.length⟩) ∧
      (extract ops (Token.fresh F) ⟨w ++ '.' :: '.' :: more, pos⟩).2.current_char = '.' := by
  have h := extract_integer_run ops (Token.fresh F) w ('.' :: '.' :: more) pos hne hw hfit
    (Or.inr ⟨rfl, rfl⟩)
  rw [h]
  exact ⟨by simp [Token.fresh], rfl⟩

/-- C3 at the input 5..10: Integer(5), text 5, the cursor on the first dot. -/
theorem extract_range_operator_unconsumed_witness :
    extract exactOps (Token.fresh ℚ) ⟨"5..10".toList, 0⟩ =
        (⟨.JT_INTEGER, "5".toList, some (.int 5)⟩, ⟨"..10".toList, 1⟩) ∧
      (extract exactOps (Token.fresh ℚ) ⟨"5..10".toList, 0⟩).2.current_char = '.' :=
  extract_range_operator_unconsumed exactOps "5".toList "10".toList 0 (by decide) (by decide)
    (by decide)

/-- C4: a non-empty digit run w of value at most 2147483647, followed by a character that is
not a digit, a dot or an exponent marker (or by the end of input), is scanned as
Integer(value of w); the token text is exactly w and the cursor has advanced by exactly
length(w) characters. -/
theorem extract_integer_literal {D F : Type} (ops : FloatOps D F)
    (w rest : List Char) (pos : Nat) (hne : w ≠ []) (hw : IsDigits w)
    (hfit : natValue w ≤ 2147483647) (hr : EndsLiteral rest) :
    extract ops (Token.fresh F) ⟨w ++ rest, pos⟩ =
      (⟨.JT_INTEGER, w, some (.int (natValue w))⟩, ⟨rest, pos + w.length⟩) := by
  rw [extract_integer_run ops (Token.fresh F) w rest pos hne hw hfit (Or.inl hr)]
  simp [Token.fresh]

/-- C4 at the input 123 followed by the end of input: Integer(123), three characters consumed. -/
theorem extract_integer_literal_witness :
    extract exactOps (Token.fresh ℚ) ⟨"123".toList, 0⟩ =
      (⟨.JT_INTEGER, "123".toList, some (.int 123)⟩, ⟨[], 3⟩) :=
  extract_integer_literal exactOps "123".toList [] 0 (by decide) (by decide) (by decide)
    (by decide)

/-- C5: a run of n nines, n at least 11, followed by a character that is not a digit, a dot
or an exponent marker, is scanned as Error(IntegerOutOfRange): type JT_ERROR, value
RANGE_INTEGER. The accumulation loop has already left at the eleventh digit, where the
accumulated value is below the previous one. -/
theorem extract_nines_out_of_range {D F : Type} (ops : FloatOps D F) (n : Nat)
    (rest : List Char) (pos : Nat) (hn : 11 ≤ n) (hr : EndsLiteral rest) :
    (extract ops (Token.fresh F) ⟨List.replicate n '9' ++ rest, pos⟩).1.type = .JT_ERROR ∧
      (extract ops (Token.fresh F) ⟨List.replicate n '9' ++ rest, pos⟩).1.value =
        some (.code .RANGE_INTEGER) ∧
      accumulate (List.replicate n '9') 0 (-1) = accumulate (List.replicate 11 '9') 0 (-1) ∧
      (accumulate (List.replicate 11 '9') 0 (-1)).1 < (accumulate (List.replicate 11 '9') 0 (-1)).2 ∧
      (accumulate (List.replicate 10 '9') 0 (-1)).1 ≥ (accumulate (List.replicate 10 '9') 0 (-1)).2 := by
  have hne : List.replicate n '9' ≠ [] := by
    intro h
    have := congrArg List.length h
    simp at this
    omega
  have hacc := accumulate_nines n hn
  have hlt : (accumulate (List.replicate n '9') 0 (-1)).1 <
      (accumulate (List.replicate n '9') 0 (-1)).2 := by
    rw [hacc]; decide
  rw [extract_whole ops _ _ rest pos hne (isDigits_replicate_nine n) hr.1, if_neg hr.2.1,
    extract_exponent_none ops _ _ _ [] false (Or.inr ⟨hr.2.2.1, hr.2.2.2⟩)]
  unfold compute_value
  rw [if_pos rfl, compute_integer_value_flagged _ _ hne hlt]
  exact ⟨rfl, rfl, hacc, by decide, by decide⟩

/-- C5 at eleven nines followed by the end of input: Error(IntegerOutOfRange). -/
theorem extract_nines_out_of_range_witness :
    (extract exactOps (Token.fresh ℚ) ⟨"99999999999".toList, 0⟩).1.type = .JT_ERROR ∧
      (extract exactOps (Token.fresh ℚ) ⟨"99999999999".toList, 0⟩).1.value =
        some (.code .RANGE_INTEGER) :=
  have h := extract_nines_out_of_range exactOps 11 [] 0 (by decide) (by decide)
  ⟨h.1, h.2.1⟩

/-- C2 (as amended): a non-empty digit run w followed by a dot and then a character that is
not a digit, a dot or an exponent marker is scanned as Error(InvalidNumber): the dot is
consumed and appended (the text is w followed by the dot), the character after it is not
consumed, and no value is computed. -/
theorem extract_empty_fraction_invalid {D F : Type} (ops : FloatOps D F)
    (w rest : List Char) (pos : Nat) (hne : w ≠ []) (hw : IsDigits w) (hr : EndsLiteral rest) :
    extract ops (Token.fresh F) ⟨w ++ '.' :: rest, pos⟩ =
      (⟨.JT_ERROR, w ++ ['.'], some (.code .INVALID_NUMBER)⟩, ⟨rest, pos + w.length + 1⟩) := by
  have hstop : StopsDigits ('.' :: rest) := by
    show isdigit '.' = false
    decide
  rw [extract_whole ops _ w ('.' :: rest) pos hne hw hstop]
  have h1 : firstChar ('.' :: rest) = '.' := rfl
  have h2 : ¬ (firstChar ('.' :: rest).tail = '.') := hr.2.1
  rw [if_pos h1, if_neg h2]
  simp only [List.tail_cons, unsigned_integer_digits_fail _ rest _ hr.1, if_true]
  simp [Token.fresh]

/-- C2 (as amended) at the digit 3, a dot and a space: Error(InvalidNumber) with text 3 and the dot. -/
theorem extract_empty_fraction_invalid_witness :
    extract exactOps (Token.fresh ℚ) ⟨"3. ".toList, 0⟩ =
      (⟨.JT_ERROR, "3.".toList, some (.code .INVALID_NUMBER)⟩, ⟨" ".toList, 2⟩) :=
  extract_empty_fraction_invalid exactOps "3".toList " ".toList 0 (by decide) (by decide)
    (by decide)

/-- C2 (counterexample): on the digit 3, a dot and a space, extract reports an error
(JT_ERROR, INVALID_NUMBER); the token is not classified Real and carries no real value. -/
theorem extract_empty_fraction_not_real :
    ¬ ((extract exactOps (Token.fresh ℚ) ⟨"3. ".toList, 0⟩).1.type = .JT_DOUBLE ∧
        (extract exactOps (Token.fresh ℚ) ⟨"3. ".toList, 0⟩).1.value = some (.float 3)) ∧
      (extract exactOps (Token.fresh ℚ) ⟨"3. ".toList, 0⟩).1.type = .JT_ERROR := by
  decide

/-- C8: after the whole part w (and the fraction part, if any), an exponent marker, an
optional sign and then a character that is not a decimal digit give Error(InvalidNumber): the
marker and the sign are consumed and appended to the text, the offending character is still
under the cursor, and the value is the error code (no integer or real value is computed). -/
theorem extract_missing_exponent_digits {D F : Type} (ops : FloatOps D F)
    (w f : List Char) (m : Char) (sg rest : List Char) (pos : Nat)
    (hne : w ≠ []) (hw : IsDigits w) (hf : IsDigits f) (hm : m = 'E' ∨ m = 'e')
    (hsg : sg = [] ∨ sg = ['+'] ∨ sg = ['-']) (hr : StopsDigits rest)
    (hns : sg = [] → firstChar rest ≠ '+' ∧ firstChar rest ≠ '-') :
    extract ops (Token.fresh F) ⟨w ++ (fractionText f ++ (m :: (sg ++ rest))), pos⟩ =
      (⟨.JT_ERROR, w ++ fractionText f ++ m :: sg, some (.code .INVALID_NUMBER)⟩,
        ⟨rest, pos + w.length + (fractionText f).length + 1 + sg.length⟩) := by
  have hms := marker_stops m (sg ++ rest) hm
  rw [extract_mantissa ops _ w f _ pos hne hw hf hms.1 (fun _ => hms.2),
    extract_exponent_marker ops _ m _ _ w f hm]
  rcases hsg with h | h | h
  · subst h
    have hn := hns rfl
    have hno : ¬ (firstChar ([] ++ rest) = '+' ∨ firstChar ([] ++ rest) = '-') := by
      simpa using hn
    rw [if_neg hno]
    simp only [List.nil_append, unsigned_integer_digits_fail _ rest _ hr]
    rw [compute_value_error ops _ _ _ _ _ _ rfl]
    simp [Token.fresh]
  · subst h
    have hyes : firstChar (['+'] ++ rest) = '+' ∨ firstChar (['+'] ++ rest) = '-' :=
      Or.inl rfl
    rw [if_pos hyes]
    simp only [List.singleton_append, List.tail_cons, firstChar_cons,
      unsigned_integer_digits_fail _ rest _ hr]
    rw [compute_value_error ops _ _ _ _ _ _ rfl]
    simp [Token.fresh]
  · subst h
    have hyes : firstChar (['-'] ++ rest) = '+' ∨ firstChar (['-'] ++ rest) = '-' :=
      Or.inr rfl
    rw [if_pos hyes]
    simp only [List.singleton_append, List.tail_cons, firstChar_cons,
      unsigned_integer_digits_fail _ rest _ hr]
    rw [compute_value_error ops _ _ _ _ _ _ rfl]
    simp [Token.fresh]

/-- C8 at the inputs 2e+x, 2e and 2.5E- : Error(InvalidNumber), marker and sign consumed. -/
theorem extract_missing_exponent_digits_witness :
    extract exactOps (Token.fresh ℚ) ⟨"2e+x".toList, 0⟩ =
        (⟨.JT_ERROR, "2e+".toList, some (.code .INVALID_NUMBER)⟩, ⟨"x".toList, 3⟩) ∧
      extract exactOps (Token.fresh ℚ) ⟨"2e".toList, 0⟩ =
        (⟨.JT_ERROR, "2e".toList, some (.code .INVALID_NUMBER)⟩, ⟨[], 2⟩) ∧
      extract exactOps (Token.fresh ℚ) ⟨"2.5E-".toList, 7⟩ =
        (⟨.JT_ERROR, "2.5E-".toList, some (.code .INVALID_NUMBER)⟩, ⟨[], 12⟩) :=
  ⟨extract_missing_exponent_digits exactOps "2".toList [] 'e' ['+'] "x".toList 0
      (by decide) (by decide) (by decide) (by decide) (by decide) (by decide) (by decide),
    extract_missing_exponent_digits exactOps "2".toList [] 'e' [] [] 0
      (by decide) (by decide) (by decide) (by decide) (by decide) (by decide) (by decide),
    extract_missing_exponent_digits exactOps "2".toList "5".toList 'E' ['-'] [] 7
      (by decide) (by decide) (by decide) (by decide) (by decide) (by decide) (by decide)⟩

/-- The range check away from the overflow of its 32-bit arithmetic: for whole digits w,
fraction digits f, exponent digits e on which the watermark test does not fire, returned value
E, and a sign s, when E + length(f) + length(w) is at most 2147483647, compute_float_value,
entered with type JT_DOUBLE, reports the real-out-of-range error (type JT_ERROR, value
RANGE_REAL, returned value 0.0) if and only if
|(s == '-' ? -E : E) - length(f) + length(w)| > 37. In particular extract on 1e100 yields
Error(RealOutOfRange). -/
theorem compute_float_value_range_check {D F : Type} (ops : FloatOps D F) (tok : Token F)
    (w f e : List Char) (s : Char) (ht : tok.type = .JT_DOUBLE)
    (hE : watermark_fires e = false)
    (hb : returned_value e + (f.length : Int) + (w.length : Int) ≤ 2147483647) :
    (((compute_float_value ops tok w f e s).1.type = .JT_ERROR ∧
        (compute_float_value ops tok w f e s).1.value = some (.code .RANGE_REAL) ∧
        (compute_float_value ops tok w f e s).2 = ops.narrow (ops.ofInt 0)) ↔
      |(if s = '-' then -returned_value e else returned_value e) - (f.length : Int)
        + (w.length : Int)| > 37) ∧
    (extract ops (Token.fresh F) ⟨"1e100".toList, 0⟩).1 =
      ⟨.JT_ERROR, "1e100".toList, some (.code .RANGE_REAL)⟩ := by
  refine ⟨?_, extract_one_e_hundred ops⟩
  rw [compute_float_value_eq, range_test_exact _ w f s (returned_value_nonneg e) hb]
  by_cases hc : |(if s = '-' then -returned_value e else returned_value e) - (f.length : Int)
      + (w.length : Int)| > 37
  · have hc2 : |(if s = '-' then -returned_value e else returned_value e) - (f.length : Int)
        + (w.length : Int)| > MAX_EXPONENT := hc
    rw [if_pos hc2]
    exact ⟨fun _ => hc, fun _ => ⟨rfl, rfl, rfl⟩⟩
  · have hc2 : ¬ (|(if s = '-' then -returned_value e else returned_value e) - (f.length : Int)
        + (w.length : Int)| > MAX_EXPONENT) := hc
    rw [if_neg hc2]
    constructor
    · intro h
      have h1 := h.1
      simp only [hE, Bool.false_eq_true, if_false, ht] at h1
      exact absurd h1 (by decide)
    · intro h
      exact absurd h hc

/-- The range check at whole digits 1, no fraction, exponent digits 100, sign plus. -/
theorem compute_float_value_range_check_witness :
    (((compute_float_value exactOps (⟨.JT_DOUBLE, "1e100".toList, none⟩ : Token ℚ)
          "1".toList [] "100".toList '+').1.type = .JT_ERROR ∧
        (compute_float_value exactOps (⟨.JT_DOUBLE, "1e100".toList, none⟩ : Token ℚ)
          "1".toList [] "100".toList '+').1.value = some (.code .RANGE_REAL) ∧
        (compute_float_value exactOps (⟨.JT_DOUBLE, "1e100".toList, none⟩ : Token ℚ)
          "1".toList [] "100".toList '+').2 = exactOps.narrow (exactOps.ofInt 0)) ↔
      |(if '+' = '-' then -returned_value "100".toList else returned_value "100".toList)
        - (([] : List Char).length : Int) + (("1".toList).length : Int)| > 37) ∧
    (extract exactOps (Token.fresh ℚ) ⟨"1e100".toList, 0⟩).1 =
      ⟨.JT_ERROR, "1e100".toList, some (.code .RANGE_REAL)⟩ :=
  compute_float_value_range_check exactOps ⟨.JT_DOUBLE, "1e100".toList, none⟩
    "1".toList [] "100".toList '+' rfl (by decide) (by decide)

/-- C6 (evaluation at the failing input): for whole digits 1, fraction digits 00, exponent
digits 2147483647 (no watermark overflow, E = 2147483647) and sign minus, |(-E) - 2 + 1|
exceeds 37, yet the 32-bit arithmetic of the range check wraps and compute_float_value reports
no error: extract accepts the literal 1.00e-2147483647 as a Real, whatever the floating-point
arithmetic. -/
theorem compute_float_value_range_check_wraps {D F : Type} (ops : FloatOps D F) :
    watermark_fires "2147483647".toList = false ∧
      returned_value "2147483647".toList = 2147483647 ∧
      |(-(2147483647 : Int)) - (("00".toList).length : Int) + (("1".toList).length : Int)| > 37 ∧
      (compute_float_value ops (⟨.JT_DOUBLE, [], none⟩ : Token F)
        "1".toList "00".toList "2147483647".toList '-').1.type = .JT_DOUBLE ∧
      (extract ops (Token.fresh F) ⟨"1.00e-2147483647".toList, 0⟩).1.type = .JT_DOUBLE ∧
      (extract ops (Token.fresh F) ⟨"1.00e-2147483647".toList, 0⟩).1.text =
        "1.00e-2147483647".toList := by
  refine ⟨by decide, by decide, by decide, ?_, by rw [extract_minus_max_exponent],
    by rw [extract_minus_max_exponent]⟩
  rw [compute_float_value_eq]
  have hr : ¬ (abs32 (wrap32 (adjust_exponent (returned_value "2147483647".toList) "00".toList '-'
      + wrap32 (("1".toList).length : Int))) > MAX_EXPONENT) := by decide
  have hf : watermark_fires "2147483647".toList = false := by decide
  rw [if_neg hr, hf]
  rfl

/-- The real value away from the overflow of the 32-bit exponent arithmetic: for whole digits
w, non-empty fraction digits f, exponent digits e (possibly empty) on which the watermark test
does not fire, returned value E, and a sign s, when E + length(f) + length(w) is at most
2147483647 and the range check passes, compute_float_value sets no error and
computes M * 10^X, where M accumulates the digits of w ++ f from left to right
(M = 10*M + digit) and X = (s == '-' ? -E : E) - length(f), with no scaling step when X = 0.
The literal 3.14 is classified Real and computed as the mantissa of 314 scaled by 10^(-2). -/
theorem compute_float_value_scaled {D F : Type} (ops : FloatOps D F) (tok : Token F)
    (w f e : List Char) (s : Char) (hfne : f ≠ []) (hE : watermark_fires e = false)
    (hb : returned_value e + (f.length : Int) + (w.length : Int) ≤ 2147483647)
    (hpass : |(if s = '-' then -returned_value e else returned_value e) - (f.length : Int)
      + (w.length : Int)| ≤ 37) :
    compute_float_value ops tok w f e s =
      (tok, ops.narrow
        (if (if s = '-' then -returned_value e else returned_value e) - (f.length : Int) = 0 then
          List.foldl (fun M c => ops.add (ops.mul (ops.ofInt 10) M) (ops.ofInt (digitOf c)))
            (ops.ofInt 0) (w ++ f)
        else
          ops.mul
            (List.foldl (fun M c => ops.add (ops.mul (ops.ofInt 10) M) (ops.ofInt (digitOf c)))
              (ops.ofInt 0) (w ++ f))
            (ops.pow10
              ((if s = '-' then -returned_value e else returned_value e) - (f.length : Int))))) ∧
    extract ops (Token.fresh F) ⟨"3.14".toList, 0⟩ =
      (⟨.JT_DOUBLE, "3.14".toList,
        some (.float (ops.narrow (ops.mul (mantissa ops "314".toList) (ops.pow10 (-2)))))⟩,
        ⟨[], 4⟩) := by
  refine ⟨?_, extract_three_point_one_four ops⟩
  have h0 := returned_value_nonneg e
  have hp : ¬ (|(if s = '-' then -returned_value e else returned_value e) - (f.length : Int)
      + (w.length : Int)| > MAX_EXPONENT) := by
    unfold MAX_EXPONENT
    omega
  rw [compute_float_value_eq, range_test_exact _ w f s h0 hb, if_neg hp,
    adjust_exponent_exact _ f s h0 (by omega), hE]
  simp only [Bool.false_eq_true, if_false, ne_eq, hfne, not_false_eq_true, if_true, mantissa]
  by_cases hx : (if s = '-' then -returned_value e else returned_value e) - (f.length : Int) = 0
  · rw [if_pos hx, if_neg (not_not.mpr hx)]
  · rw [if_neg hx, if_pos hx]

/-- The real value at the input 3.14, evaluated in exact arithmetic: 314 scaled by 10^(-2). -/
theorem compute_float_value_scaled_witness :
    compute_float_value exactOps (⟨.JT_DOUBLE, "3.14".toList, none⟩ : Token ℚ)
        "3".toList "14".toList [] '+' = (⟨.JT_DOUBLE, "3.14".toList, none⟩, 157 / 50) ∧
      extract exactOps (Token.fresh ℚ) ⟨"3.14".toList, 0⟩ =
        (⟨.JT_DOUBLE, "3.14".toList, some (.float (157 / 50))⟩, ⟨[], 4⟩) := by
  have h := compute_float_value_scaled exactOps (⟨.JT_DOUBLE, "3.14".toList, none⟩ : Token ℚ)
    "3".toList "14".toList [] '+' (by decide) (by decide) (by decide) (by decide)
  have d1 : digitOf '1' = 1 := by decide
  have d3 : digitOf '3' = 3 := by decide
  have d4 : digitOf '4' = 4 := by decide
  have hr : returned_value [] = 0 := by decide
  have hl : "3".toList ++ "14".toList = ['3', '1', '4'] := by decide
  have hm : "314".toList = ['3', '1', '4'] := by decide
  constructor
  · rw [h.1, hr, hl]
    norm_num [exactOps, d1, d3, d4]
  · rw [h.2, hm]
    norm_num [exactOps, mantissa, d1, d3, d4]

/-- C10 (evaluation at the failing input): for whole digits 1, fraction digits 00, exponent
digits 2147483647 and sign minus (the literal 1.00e-2147483647), the code passes its range
check, but the exponent it scales by has wrapped to 2147483647: the value stored by extract is
the mantissa of 100 scaled by 10^2147483647, not by 10^(-2147483647 - 2). -/
theorem compute_float_value_exponent_wraps :
    (extract exactOps (Token.fresh ℚ) ⟨"1.00e-2147483647".toList, 0⟩).1.value =
        some (.float (exactOps.narrow (exactOps.mul (mantissa exactOps "100".toList)
          (exactOps.pow10 2147483647)))) ∧
    (compute_float_value exactOps (⟨.JT_DOUBLE, [], none⟩ : Token ℚ)
        "1".toList "00".toList "2147483647".toList '-').1.type = .JT_DOUBLE ∧
      (compute_float_value exactOps (⟨.JT_DOUBLE, [], none⟩ : Token ℚ)
        "1".toList "00".toList "2147483647".toList '-').2 =
        exactOps.narrow (exactOps.mul (mantissa exactOps "100".toList)
          (exactOps.pow10 2147483647)) ∧
      exactOps.narrow (exactOps.mul (mantissa exactOps "100".toList) (exactOps.pow10 2147483647))
        ≠ exactOps.narrow (exactOps.mul (mantissa exactOps "100".toList)
          (exactOps.pow10 (-returned_value "2147483647".toList - (("00".toList).length : Int))))
      := by
  have hr : ¬ (abs32 (wrap32 (adjust_exponent (returned_value "2147483647".toList) "00".toList '-'
      + wrap32 (("1".toList).length : Int))) > MAX_EXPONENT) := by decide
  have hf : watermark_fires "2147483647".toList = false := by decide
  have hX : adjust_exponent (returned_value "2147483647".toList) "00".toList '-' = 2147483647 := by
    decide
  have hv : returned_value "2147483647".toList = 2147483647 := by decide
  have hl : (if "00".toList ≠ [] then "1".toList ++ "00".toList else "1".toList) = "100".toList := by
    decide
  have d0 : digitOf '0' = 0 := by decide
  have d1 : digitOf '1' = 1 := by decide
  have hm : mantissa exactOps "100".toList = 100 := by
    have hs : "100".toList = ['1', '0', '0'] := by decide
    rw [hs]
    norm_num [exactOps, mantissa, d0, d1]
  rw [compute_float_value_eq, if_neg hr, hf, hX, hl]
  refine ⟨by rw [extract_minus_max_exponent], rfl, ?_, ?_⟩
  · simp
  · rw [hv, hm]
    simp only [exactOps]
    intro h
    have h2 : (10 : ℚ) ^ (2147483647 : ℤ) = (10 : ℚ) ^ (-2147483647 - (("00".toList).length : ℤ)) :=
      mul_left_cancel₀ (by norm_num) h
    have h3 := (zpow_right_strictMono₀ (by norm_num : (1 : ℚ) < 10)).injective h2
    have h4 : (("00".toList).length : ℤ) = 2 := by decide
    rw [h4] at h3
    omega

/-! ## Every run of extract -/

theorem digits_split (l : List Char) :
    ∃ w rest, l = w ++ rest ∧ IsDigits w ∧ StopsDigits rest := by
  induction l with
  | nil => exact ⟨[], [], rfl, fun c hc => (by cases hc), not_isdigit_END_OF_FILE⟩
  | cons c cs ih =>
    by_cases hc : isdigit c = true
    · obtain ⟨w, rest, hl, hw, hr⟩ := ih
      refine ⟨c :: w, rest, by rw [hl]; rfl, ?_, hr⟩
      intro d hd
      rcases List.mem_cons.mp hd with h | h
      · rw [h]; exact hc
      · exact hw d h
    · refine ⟨[], c :: cs, rfl, fun d hd => (by cases hd), ?_⟩
      unfold StopsDigits
      rw [firstChar_cons]
      simpa using hc

theorem firstChar_eq_cons {l : List Char} {c : Char} (h : firstChar l = c)
    (hc : c ≠ END_OF_FILE) : l = c :: l.tail := by
  cases l with
  | nil => exact absurd h.symm hc
  | cons d t =>
    rw [firstChar_cons] at h
    rw [h, List.tail_cons]

theorem extract_no_digits {D F : Type} (ops : FloatOps D F) (tok : Token F)
    (rest : List Char) (pos : Nat) (hr : StopsDigits rest) :
    extract ops tok ⟨rest, pos⟩ =
      (⟨.JT_ERROR, tok.text, some (.code .INVALID_NUMBER)⟩, ⟨rest, pos⟩) := by
  unfold extract
  simp only [unsigned_integer_digits_fail _ rest pos hr, if_true]

theorem extract_fraction_missing {D F : Type} (ops : FloatOps D F) (tok : Token F)
    (w rest : List Char) (pos : Nat) (hne : w ≠ []) (hw : IsDigits w) (hr : StopsDigits rest)
    (hdot : firstChar rest ≠ '.') :
    extract ops tok ⟨w ++ '.' :: rest, pos⟩ =
      (⟨.JT_ERROR, tok.text ++ w ++ ['.'], some (.code .INVALID_NUMBER)⟩,
        ⟨rest, pos + w.length + 1⟩) := by
  have hstop : StopsDigits ('.' :: rest) := by
    show isdigit '.' = false
    decide
  rw [extract_whole ops _ w ('.' :: rest) pos hne hw hstop]
  have h1 : firstChar ('.' :: rest) = '.' := rfl
  have h2 : ¬ (firstChar ('.' :: rest).tail = '.') := hdot
  rw [if_pos h1, if_neg h2]
  simp only [List.tail_cons, unsigned_integer_digits_fail _ rest _ hr, if_true]

theorem extract_exponent_missing {D F : Type} (ops : FloatOps D F) (tok : Token F)
    (w f : List Char) (m : Char) (sg rest : List Char) (pos : Nat)
    (hne : w ≠ []) (hw : IsDigits w) (hf : IsDigits f) (hm : m = 'E' ∨ m = 'e')
    (hsg : sg = [] ∨ sg = ['+'] ∨ sg = ['-']) (hr : StopsDigits rest)
    (hns : sg = [] → firstChar rest ≠ '+' ∧ firstChar rest ≠ '-') :
    extract ops tok ⟨w ++ (fractionText f ++ (m :: (sg ++ rest))), pos⟩ =
      (⟨.JT_ERROR, tok.text ++ w ++ fractionText f ++ m :: sg, some (.code .INVALID_NUMBER)⟩,
        ⟨rest, pos + w.length + (fractionText f).length + 1 + sg.length⟩) := by
  have hms := marker_stops m (sg ++ rest) hm
  rw [extract_mantissa ops _ w f _ pos hne hw hf hms.1 (fun _ => hms.2),
    extract_exponent_marker ops _ m _ _ w f hm]
  rcases hsg with h | h | h
  · subst h
    have hn := hns rfl
    have hno : ¬ (firstChar ([] ++ rest) = '+' ∨ firstChar ([] ++ rest) = '-') := by
      simpa using hn
    rw [if_neg hno]
    simp only [List.nil_append, unsigned_integer_digits_fail _ rest _ hr]
    rw [compute_value_error ops _ _ _ _ _ _ rfl]
    simp
  · subst h
    have hyes : firstChar (['+'] ++ rest) = '+' ∨ firstChar (['+'] ++ rest) = '-' :=
      Or.inl rfl
    rw [if_pos hyes]
    simp only [List.singleton_append, List.tail_cons, firstChar_cons,
      unsigned_integer_digits_fail _ rest _ hr]
    rw [compute_value_error ops _ _ _ _ _ _ rfl]
    simp
  · subst h
    have hyes : firstChar (['-'] ++ rest) = '+' ∨ firstChar (['-'] ++ rest) = '-' :=
      Or.inr rfl
    rw [if_pos hyes]
    simp only [List.singleton_append, List.tail_cons, firstChar_cons,
      unsigned_integer_digits_fail _ rest _ hr]
    rw [compute_value_error ops _ _ _ _ _ _ rfl]
    simp

theorem extract_scanned_exponent {D F : Type} (ops : FloatOps D F) (tok : Token F)
    (w f : List Char) (m : Char) (sg rest : List Char) (pos : Nat)
    (hne : w ≠ []) (hw : IsDigits w) (hf : IsDigits f) (hm : m = 'E' ∨ m = 'e')
    (hsg : sg = [] ∨ sg = ['+'] ∨ sg = ['-'])
    (hns : sg = [] → firstChar rest ≠ '+' ∧ firstChar rest ≠ '-') :
    Scanned ops tok pos (w ++ (fractionText f ++ (m :: (sg ++ rest))))
      (extract ops tok ⟨w ++ (fractionText f ++ (m :: (sg ++ rest))), pos⟩) := by
  obtain ⟨e, rest5, hsplit, he, hr5⟩ := digits_split rest
  by_cases hee : e = []
  · subst hee
    rw [List.nil_append] at hsplit
    subst hsplit
    rw [extract_exponent_missing ops tok w f m sg rest pos hne hw hf hm hsg hr5 hns]
    exact Scanned.no_exponent w f m sg rest hne hw hf hm hsg hr5 hns
  · subst hsplit
    rw [extract_with_exponent ops tok w f m sg e rest5 pos hne hw hf hm hsg hee he hr5]
    exact Scanned.real_exponent w f m sg e rest5 hne hw hf hm hsg hee he hr5

theorem extract_scanned_mantissa {D F : Type} (ops : FloatOps D F) (tok : Token F)
    (w f rest : List Char) (pos : Nat) (hne : w ≠ []) (hw : IsDigits w) (hf : IsDigits f)
    (hr : StopsDigits rest) (hdot : f = [] → firstChar rest ≠ '.') :
    Scanned ops tok pos (w ++ (fractionText f ++ rest))
      (extract ops tok ⟨w ++ (fractionText f ++ rest), pos⟩) := by
  by_cases hm : firstChar rest = 'E' ∨ firstChar rest = 'e'
  · have hmne : firstChar rest ≠ END_OF_FILE := by
      rcases hm with h | h <;> rw [h] <;> decide
    have hrest := firstChar_eq_cons (rfl : firstChar rest = firstChar rest) hmne
    by_cases hs : firstChar rest.tail = '+' ∨ firstChar rest.tail = '-'
    · have hsne : firstChar rest.tail ≠ END_OF_FILE := by
        rcases hs with h | h <;> rw [h] <;> decide
      have htail := firstChar_eq_cons (rfl : firstChar rest.tail = firstChar rest.tail) hsne
      have hshape : rest = firstChar rest :: ([firstChar rest.tail] ++ rest.tail.tail) := by
        rw [List.singleton_append, ← htail]
        exact hrest
      rw [hshape]
      refine extract_scanned_exponent ops tok w f _ _ _ pos hne hw hf hm ?_ ?_
      · rcases hs with h | h
        · exact Or.inr (Or.inl (by rw [h]))
        · exact Or.inr (Or.inr (by rw [h]))
      · intro h
        cases h
    · have hshape : rest = firstChar rest :: ([] ++ rest.tail) := by
        rw [List.nil_append]
        exact hrest
      rw [hshape]
      exact extract_scanned_exponent ops tok w f _ [] _ pos hne hw hf hm (Or.inl rfl)
        (fun _ => ⟨fun h => hs (Or.inl h), fun h => hs (Or.inr h)⟩)
  · have hE : firstChar rest ≠ 'E' := fun h => hm (Or.inl h)
    have he : firstChar rest ≠ 'e' := fun h => hm (Or.inr h)
    rw [extract_mantissa ops tok w f rest pos hne hw hf hr hdot,
      extract_exponent_none ops _ _ w f false (Or.inr ⟨hE, he⟩)]
    by_cases hfe : f = []
    · subst hfe
      have hd := hdot rfl
      simp only [fractionText, if_true, List.nil_append, List.append_nil, List.length_nil,
        Nat.add_zero]
      exact Scanned.integer w rest hne hw (Or.inl ⟨hr, hd, hE, he⟩)
    · rw [if_neg hfe]
      exact Scanned.real w f rest hne hw hfe hf hr hE he

theorem extract_scanned {D F : Type} (ops : FloatOps D F) (tok : Token F)
    (chars : List Char) (pos : Nat) :
    Scanned ops tok pos chars (extract ops tok ⟨chars, pos⟩) := by
  obtain ⟨w, rest, hsplit, hw, hr⟩ := digits_split chars
  subst hsplit
  by_cases hne : w = []
  · subst hne
    rw [List.nil_append, extract_no_digits ops tok rest pos hr]
    exact Scanned.no_digits rest hr
  · by_cases h1 : firstChar rest = '.'
    · by_cases h2 : firstChar rest.tail = '.'
      · rw [extract_whole ops tok w rest pos hne hw hr, if_pos h1, if_pos h2,
          extract_exponent_none ops _ _ w [] true (Or.inl rfl)]
        exact Scanned.integer w rest hne hw (Or.inr ⟨h1, h2⟩)
      · have hrest := firstChar_eq_cons h1 (by decide)
        obtain ⟨f, rest2, hsplit2, hf, hr2⟩ := digits_split rest.tail
        by_cases hfe : f = []
        · subst hfe
          rw [List.nil_append] at hsplit2
          rw [hrest, extract_fraction_missing ops tok w rest.tail pos hne hw
            (by rw [hsplit2]; exact hr2) h2]
          exact Scanned.no_fraction w rest.tail hne hw (by rw [hsplit2]; exact hr2) h2
        · have hin : rest = fractionText f ++ rest2 := by
            rw [hrest, hsplit2]
            simp [fractionText, hfe]
          rw [hin]
          exact extract_scanned_mantissa ops tok w f rest2 pos hne hw hf hr2
            (fun h => absurd h hfe)
    · have h := extract_scanned_mantissa ops tok w [] rest pos hne hw
        (fun c hc => by cases hc) hr (fun _ => h1)
      simpa [fractionText] using h

theorem digits_loop_eq (cs : List Char) (pos : Nat) (text digits : List Char) :
    digits_loop cs pos text digits =
      (text ++ cs.takeWhile isdigit, digits ++ cs.takeWhile isdigit,
        ⟨cs.dropWhile isdigit, pos + (cs.takeWhile isdigit).length⟩) := by
  induction cs generalizing pos text digits with
  | nil => simp [digits_loop]
  | cons c cs ih =>
    by_cases hc : isdigit c = true
    · simp only [digits_loop, hc, if_true, ih, List.takeWhile_cons_of_pos hc,
        List.dropWhile_cons_of_pos hc, List.length_cons]
      simp [Nat.add_assoc, Nat.add_comm 1]
    · simp [digits_loop, hc]

theorem isDigits_takeWhile (cs : List Char) : IsDigits (cs.takeWhile isdigit) := by
  intro c hc
  exact (List.mem_takeWhile_imp hc)

theorem stopsDigits_dropWhile (cs : List Char) : StopsDigits (cs.dropWhile isdigit) := by
  induction cs with
  | nil => exact not_isdigit_END_OF_FILE
  | cons c cs ih =>
    by_cases hc : isdigit c = true
    · rw [List.dropWhile_cons_of_pos hc]
      exact ih
    · rw [List.dropWhile_cons_of_neg hc]
      unfold StopsDigits
      rw [firstChar_cons]
      simpa using hc

theorem compute_value_integer_eq {D F : Type} (ops : FloatOps D F) (text : List Char)
    (v : Option (DataValue F)) (src : Source) (w f e : List Char) (s : Char) :
    compute_value ops ⟨.JT_INTEGER, text, v⟩ src w f e s =
      if watermark_fires w = true then
        (⟨.JT_ERROR, text, some (.code .RANGE_INTEGER)⟩, src)
      else (⟨.JT_INTEGER, text, some (.int (returned_value w))⟩, src) := by
  unfold compute_value
  rw [if_pos rfl, compute_integer_value_eq]
  cases watermark_fires w <;> simp

theorem compute_value_real_eq {D F : Type} (ops : FloatOps D F) (text : List Char)
    (v : Option (DataValue F)) (src : Source) (w f e : List Char) (s : Char) :
    compute_value ops ⟨.JT_DOUBLE, text, v⟩ src w f e s =
      if abs32 (wrap32 (adjust_exponent (returned_value e) f s + wrap32 (w.length : Int)))
          > MAX_EXPONENT then
        (⟨.JT_ERROR, text, some (.code .RANGE_REAL)⟩, src)
      else if watermark_fires e = true then
        (⟨.JT_ERROR, text, some (.code .RANGE_INTEGER)⟩, src)
      else
        (⟨.JT_DOUBLE, text, some (.float (ops.narrow
          (if adjust_exponent (returned_value e) f s ≠ 0 then
            ops.mul (mantissa ops (if f ≠ [] then w ++ f else w))
              (ops.pow10 (adjust_exponent (returned_value e) f s))
          else mantissa ops (if f ≠ [] then w ++ f else w))))⟩, src) := by
  rw [compute_value_double _ _ _ _ _ _ _ rfl, compute_float_value_eq]
  by_cases hr : abs32 (wrap32 (adjust_exponent (returned_value e) f s + wrap32 (w.length : Int)))
      > MAX_EXPONENT
  · rw [if_pos hr, if_pos hr]
    simp
  · rw [if_neg hr, if_neg hr]
    cases watermark_fires e <;> simp

theorem compute_value_keeps {D F : Type} (ops : FloatOps D F) (tok : Token F) (src : Source)
    (w f e : List Char) (s : Char) :
    (compute_value ops tok src w f e s).1.text = tok.text ∧
      (compute_value ops tok src w f e s).2 = src := by
  obtain ⟨ty, text, v⟩ := tok
  cases ty
  · rw [compute_value_integer_eq]
    split <;> exact ⟨rfl, rfl⟩
  · rw [compute_value_real_eq]
    split
    · exact ⟨rfl, rfl⟩
    · split <;> exact ⟨rfl, rfl⟩
  · rw [compute_value_error ops _ _ _ _ _ _ rfl]
    exact ⟨rfl, rfl⟩

theorem scanned_consumes {D F : Type} {ops : FloatOps D F} {tok : Token F} {pos : Nat}
    {chars : List Char} {r : Token F × Source} (h : Scanned ops tok pos chars r) :
    ∃ run, r.1.text = tok.text ++ run ∧ chars = run ++ r.2.chars ∧
      r.2.pos = pos + run.length := by
  cases h with
  | no_digits rest hr => exact ⟨[], by simp, by simp, by simp⟩
  | integer w rest hne hw hr =>
    have hk := compute_value_keeps ops ⟨.JT_INTEGER, tok.text ++ w, tok.value⟩
      ⟨rest, pos + w.length⟩ w [] [] '+'
    exact ⟨w, hk.1, by rw [hk.2], by rw [hk.2]⟩
  | no_fraction w rest hne hw hr hdot =>
    exact ⟨w ++ ['.'], by simp, by simp, by simp [Nat.add_assoc]⟩
  | real w f rest hne hw hfne hf hr hE he =>
    have hk := compute_value_keeps ops ⟨.JT_DOUBLE, tok.text ++ w ++ fractionText f, tok.value⟩
      ⟨rest, pos + w.length + (fractionText f).length⟩ w f [] '+'
    exact ⟨w ++ fractionText f, by rw [hk.1]; simp, by rw [hk.2]; simp,
      by rw [hk.2]; simp [Nat.add_assoc]⟩
  | no_exponent w f m sg rest hne hw hf hm hsg hr hns =>
    exact ⟨w ++ fractionText f ++ m :: sg, by simp, by simp, by simp; omega⟩
  | real_exponent w f m sg e rest hne hw hf hm hsg hene he hr =>
    have hk := compute_value_keeps ops
      ⟨.JT_DOUBLE, tok.text ++ w ++ fractionText f ++ [m] ++ sg ++ e, tok.value⟩
      ⟨rest, pos + w.length + (fractionText f).length + 1 + sg.length + e.length⟩
      w f e (signOf sg)
    exact ⟨w ++ fractionText f ++ [m] ++ sg ++ e, by rw [hk.1]; simp, by rw [hk.2]; simp,
      by rw [hk.2]; simp; omega⟩

/-- C11: for every input and every starting position, whatever the outcome, the text
accumulated by extract from an empty text is exactly the slice of the input between the
starting position and the final cursor position: the input is that text followed by the
characters still under the cursor, and the cursor has advanced by the length of the text. -/
theorem extract_text_is_consumed_span {D F : Type} (ops : FloatOps D F) (chars : List Char)
    (pos : Nat) :
    chars = (extract ops (Token.fresh F) ⟨chars, pos⟩).1.text ++
        (extract ops (Token.fresh F) ⟨chars, pos⟩).2.chars ∧
      (extract ops (Token.fresh F) ⟨chars, pos⟩).2.pos =
        pos + (extract ops (Token.fresh F) ⟨chars, pos⟩).1.text.length ∧
      (extract ops (Token.fresh F) ⟨chars, pos⟩).1.text =
        chars.take ((extract ops (Token.fresh F) ⟨chars, pos⟩).2.pos - pos) := by
  obtain ⟨run, h1, h2, h3⟩ := scanned_consumes (extract_scanned ops (Token.fresh F) chars pos)
  have ht : (extract ops (Token.fresh F) ⟨chars, pos⟩).1.text = run := by
    rw [h1]
    rfl
  rw [ht]
  refine ⟨h2, h3, ?_⟩
  rw [h3, Nat.add_sub_cancel_left]
  conv => rhs; rw [h2]
  simp

/-- C12: unsigned_integer_digits, for every token and cursor. If the current character is
not a decimal digit it sets the error state (JT_ERROR, INVALID_NUMBER), returns the empty
string and leaves the cursor and the text unchanged. Otherwise it returns the maximal run of
decimal digits at the cursor, appends exactly that run to the text, advances the cursor by
the length of the run and leaves it on the first character that is not a digit; type and
value are unchanged. -/
theorem unsigned_integer_digits_spec {F : Type} (tok : Token F) (src : Source) :
    unsigned_integer_digits tok src =
      (if isdigit src.current_char = true then
        (src.chars.takeWhile isdigit,
          { tok with text := tok.text ++ src.chars.takeWhile isdigit },
          ⟨src.chars.dropWhile isdigit, src.pos + (src.chars.takeWhile isdigit).length⟩)
      else
        ([], { tok with type := .JT_ERROR, value := some (.code .INVALID_NUMBER) }, src)) ∧
    src.chars = src.chars.takeWhile isdigit ++ src.chars.dropWhile isdigit ∧
    IsDigits (src.chars.takeWhile isdigit) ∧
    isdigit (Source.current_char ⟨src.chars.dropWhile isdigit,
      src.pos + (src.chars.takeWhile isdigit).length⟩) = false ∧
    (isdigit src.current_char = true → src.chars.takeWhile isdigit ≠ []) := by
  refine ⟨?_, (List.takeWhile_append_dropWhile isdigit src.chars).symm,
    isDigits_takeWhile src.chars, stopsDigits_dropWhile src.chars, ?_⟩
  · unfold unsigned_integer_digits
    by_cases hc : isdigit src.current_char = true
    · simp only [hc, Bool.not_true, Bool.false_eq_true, if_false, if_true, digits_loop_eq,
        List.nil_append]
    · simp only [hc, Bool.not_eq_true] at *
      simp [hc]
  · intro hc
    obtain ⟨chars, pos⟩ := src
    cases chars with
    | nil =>
      have hc2 : isdigit END_OF_FILE = true := hc
      exact absurd hc2 (by decide)
    | cons c cs =>
      have hc2 : isdigit c = true := hc
      rw [List.takeWhile_cons_of_pos hc2]
      exact List.cons_ne_nil _ _

theorem error_ne_integer : TokenType.JT_ERROR ≠ TokenType.JT_INTEGER := by decide

theorem error_ne_double : TokenType.JT_ERROR ≠ TokenType.JT_DOUBLE := by decide

theorem double_ne_integer : TokenType.JT_DOUBLE ≠ TokenType.JT_INTEGER := by decide

theorem unsigned_integer_digits_type {F : Type} (tok : Token F) (src : Source) :
    (unsigned_integer_digits tok src).2.1.type = tok.type ∨
      (unsigned_integer_digits tok src).2.1.type = .JT_ERROR := by
  unfold unsigned_integer_digits
  by_cases hc : isdigit src.current_char = true
  · exact Or.inl (by simp [hc])
  · exact Or.inr (by simp [hc])

theorem compute_value_type {D F : Type} (ops : FloatOps D F) (tok : Token F) (src : Source)
    (w f e : List Char) (s : Char) :
    (compute_value ops tok src w f e s).1.type = tok.type ∨
      (compute_value ops tok src w f e s).1.type = .JT_ERROR := by
  obtain ⟨ty, text, v⟩ := tok
  cases ty
  · rw [compute_value_integer_eq]
    split
    · exact Or.inr rfl
    · exact Or.inl rfl
  · rw [compute_value_real_eq]
    split
    · exact Or.inr rfl
    · split
      · exact Or.inr rfl
      · exact Or.inl rfl
  · rw [compute_value_error ops _ _ _ _ _ _ rfl]
    exact Or.inl rfl

theorem compute_value_after_digits {D F : Type} (ops : FloatOps D F) (tok : Token F)
    (src : Source) (w f : List Char) (s : Char) (ht : tok.type ≠ .JT_INTEGER) :
    (compute_value ops (unsigned_integer_digits tok src).2.1
      (unsigned_integer_digits tok src).2.2 w f (unsigned_integer_digits tok src).1 s).1.type
      ≠ .JT_INTEGER := by
  intro h
  rcases compute_value_type ops (unsigned_integer_digits tok src).2.1
    (unsigned_integer_digits tok src).2.2 w f (unsigned_integer_digits tok src).1 s with h1 | h1
  · rw [h1] at h
    rcases unsigned_integer_digits_type tok src with h2 | h2
    · rw [h2] at h
      exact ht h
    · rw [h2] at h
      exact error_ne_integer h
  · rw [h1] at h
    exact error_ne_integer h

theorem extract_exponent_type {D F : Type} (ops : FloatOps D F) (tok : Token F) (src : Source)
    (w f : List Char) (saw_dot_dot : Bool) (ht : tok.type ≠ .JT_INTEGER) :
    (extract_exponent ops tok src w f saw_dot_dot).1.type ≠ .JT_INTEGER := by
  unfold extract_exponent
  dsimp only
  split
  · split
    · exact compute_value_after_digits ops _ _ w f _ double_ne_integer
    · exact compute_value_after_digits ops _ _ w f _ double_ne_integer
  · intro h
    rcases compute_value_type ops tok src w f [] '+' with h1 | h1
    · rw [h1] at h
      exact ht h
    · rw [h1] at h
      exact error_ne_integer h

theorem scanned_classified {D F : Type} {ops : FloatOps D F} {tok : Token F} {pos : Nat}
    {chars : List Char} {r : Token F × Source} (h : Scanned ops tok pos chars r)
    (ht : tok.text = []) :
    ((r.1.type = .JT_INTEGER ∧ ∃ v, r.1.value = some (.int v)) ∨
      (r.1.type = .JT_DOUBLE ∧ ∃ x, r.1.value = some (.float x)) ∨
      (r.1.type = .JT_ERROR ∧ ∃ c, r.1.value = some (.code c))) ∧
    (r.1.type = .JT_INTEGER → IsDigits r.1.text) := by
  cases h with
  | no_digits rest hr => exact ⟨Or.inr (Or.inr ⟨rfl, _, rfl⟩), fun h => absurd h error_ne_integer⟩
  | integer w rest hne hw hr =>
    rw [compute_value_integer_eq]
    split
    · exact ⟨Or.inr (Or.inr ⟨rfl, _, rfl⟩), fun h => absurd h error_ne_integer⟩
    · refine ⟨Or.inl ⟨rfl, _, rfl⟩, fun _ => ?_⟩
      show IsDigits (tok.text ++ w)
      rw [ht]
      exact hw
  | no_fraction w rest hne hw hr hdot =>
    exact ⟨Or.inr (Or.inr ⟨rfl, _, rfl⟩), fun h => absurd h error_ne_integer⟩
  | real w f rest hne hw hfne hf hr hE he =>
    rw [compute_value_real_eq]
    split
    · exact ⟨Or.inr (Or.inr ⟨rfl, _, rfl⟩), fun h => absurd h error_ne_integer⟩
    · split
      · exact ⟨Or.inr (Or.inr ⟨rfl, _, rfl⟩), fun h => absurd h error_ne_integer⟩
      · exact ⟨Or.inr (Or.inl ⟨rfl, _, rfl⟩), fun h => absurd h double_ne_integer⟩
  | no_exponent w f m sg rest hne hw hf hm hsg hr hns =>
    exact ⟨Or.inr (Or.inr ⟨rfl, _, rfl⟩), fun h => absurd h error_ne_integer⟩
  | real_exponent w f m sg e rest hne hw hf hm hsg hene he hr =>
    rw [compute_value_real_eq]
    split
    · exact ⟨Or.inr (Or.inr ⟨rfl, _, rfl⟩), fun h => absurd h error_ne_integer⟩
    · split
      · exact ⟨Or.inr (Or.inr ⟨rfl, _, rfl⟩), fun h => absurd h error_ne_integer⟩
      · exact ⟨Or.inr (Or.inl ⟨rfl, _, rfl⟩), fun h => absurd h double_ne_integer⟩

/-- C13: for every input, the final outcome of extract is exactly one of an Integer value
(type JT_INTEGER), a Real value (type JT_DOUBLE) or an error kind (type JT_ERROR); an Integer
is yielded only if the token text consists solely of decimal digits, so whenever a decimal
point or an exponent marker has been consumed the result is Real or an Error; and no step
after the initial assignment turns a type other than JT_INTEGER back into JT_INTEGER. -/
theorem extract_classification {D F : Type} (ops : FloatOps D F) (chars : List Char)
    (pos : Nat) :
    (((extract ops (Token.fresh F) ⟨chars, pos⟩).1.type = .JT_INTEGER ∧
        ∃ v, (extract ops (Token.fresh F) ⟨chars, pos⟩).1.value = some (.int v)) ∨
      ((extract ops (Token.fresh F) ⟨chars, pos⟩).1.type = .JT_DOUBLE ∧
        ∃ x, (extract ops (Token.fresh F) ⟨chars, pos⟩).1.value = some (.float x)) ∨
      ((extract ops (Token.fresh F) ⟨chars, pos⟩).1.type = .JT_ERROR ∧
        ∃ c, (extract ops (Token.fresh F) ⟨chars, pos⟩).1.value = some (.code c))) ∧
    ((extract ops (Token.fresh F) ⟨chars, pos⟩).1.type = .JT_INTEGER →
      IsDigits (extract ops (Token.fresh F) ⟨chars, pos⟩).1.text) ∧
    (('.' ∈ (extract ops (Token.fresh F) ⟨chars, pos⟩).1.text ∨
        'E' ∈ (extract ops (Token.fresh F) ⟨chars, pos⟩).1.text ∨
        'e' ∈ (extract ops (Token.fresh F) ⟨chars, pos⟩).1.text) →
      (extract ops (Token.fresh F) ⟨chars, pos⟩).1.type = .JT_DOUBLE ∨
        (extract ops (Token.fresh F) ⟨chars, pos⟩).1.type = .JT_ERROR) ∧
    (∀ (tok : Token F) (src : Source) (w f e : List Char) (s : Char) (saw_dot_dot : Bool),
      tok.type ≠ .JT_INTEGER →
        (unsigned_integer_digits tok src).2.1.type ≠ .JT_INTEGER ∧
        (compute_value ops tok src w f e s).1.type ≠ .JT_INTEGER ∧
        (extract_exponent ops tok src w f saw_dot_dot).1.type ≠ .JT_INTEGER) := by
  have h := scanned_classified (extract_scanned ops (Token.fresh F) chars pos) rfl
  refine ⟨h.1, h.2, ?_, ?_⟩
  · intro hmem
    rcases h.1 with h1 | h1 | h1
    · have hd := h.2 h1.1
      rcases hmem with hm | hm | hm
      · exact absurd (hd _ hm) (by decide)
      · exact absurd (hd _ hm) (by decide)
      · exact absurd (hd _ hm) (by decide)
    · exact Or.inl h1.1
    · exact Or.inr h1.1
  · intro tok src w f e s saw_dot_dot ht
    refine ⟨?_, ?_, extract_exponent_type ops tok src w f saw_dot_dot ht⟩
    · intro h2
      rcases unsigned_integer_digits_type tok src with h1 | h1
      · rw [h1] at h2
        exact ht h2
      · rw [h1] at h2
        exact error_ne_integer h2
    · intro h2
      rcases compute_value_type ops tok src w f e s with h1 | h1
      · rw [h1] at h2
        exact ht h2
      · rw [h1] at h2
        exact error_ne_integer h2

theorem compute_value_fst {D F : Type} (ops : FloatOps D F) (tok : Token F)
    (src src2 : Source) (w f e : List Char) (s : Char) :
    (compute_value ops tok src w f e s).1 = (compute_value ops tok src2 w f e s).1 := by
  obtain ⟨ty, text, v⟩ := tok
  cases ty
  · rw [compute_value_integer_eq, compute_value_integer_eq]
    split <;> rfl
  · rw [compute_value_real_eq, compute_value_real_eq]
    split
    · rfl
    · split <;> rfl
  · rw [compute_value_error ops _ _ _ _ _ _ rfl, compute_value_error ops _ _ _ _ _ _ rfl]

theorem scanned_sound {D F : Type} {ops : FloatOps D F} {tok : Token F} {pos : Nat}
    {chars : List Char} {r : Token F × Source} (h : Scanned ops tok pos chars r) :
    extract ops tok ⟨chars, pos⟩ = r := by
  cases h with
  | no_digits rest hr => exact extract_no_digits ops tok chars pos hr
  | integer w rest hne hw hr =>
    have hstop : StopsDigits rest := by
      rcases hr with h | h
      · exact h.1
      · unfold StopsDigits; rw [h.1]; decide
    rw [extract_whole ops tok w rest pos hne hw hstop]
    rcases hr with h | h
    · rw [if_neg h.2.1, extract_exponent_none ops _ _ w [] false (Or.inr ⟨h.2.2.1, h.2.2.2⟩)]
    · rw [if_pos h.1, if_pos h.2, extract_exponent_none ops _ _ w [] true (Or.inl rfl)]
  | no_fraction w rest hne hw hr hdot =>
    exact extract_fraction_missing ops tok w rest pos hne hw hr hdot
  | real w f rest hne hw hfne hf hr hE he =>
    rw [extract_mantissa ops tok w f rest pos hne hw hf hr (fun h => absurd h hfne),
      extract_exponent_none ops _ _ w f false (Or.inr ⟨hE, he⟩), if_neg hfne]
  | no_exponent w f m sg rest hne hw hf hm hsg hr hns =>
    exact extract_exponent_missing ops tok w f m sg rest pos hne hw hf hm hsg hr hns
  | real_exponent w f m sg e rest hne hw hf hm hsg hene he hr =>
    exact extract_with_exponent ops tok w f m sg e rest pos hne hw hf hm hsg hene he hr

theorem scanned_shift {D F : Type} {ops : FloatOps D F} {tok : Token F} {pos : Nat}
    {chars : List Char} {r : Token F × Source} (h : Scanned ops tok pos chars r) (pos2 : Nat) :
    ∃ r2, Scanned ops tok pos2 chars r2 ∧ r2.1 = r.1 ∧ r2.2.chars = r.2.chars ∧
      r2.2.pos + pos = r.2.pos + pos2 := by
  cases h with
  | no_digits rest hr =>
    exact ⟨_, Scanned.no_digits chars hr, rfl, rfl, Nat.add_comm _ _⟩
  | integer w rest hne hw hr =>
    refine ⟨_, Scanned.integer w rest hne hw hr, compute_value_fst ops _ _ _ _ _ _ _, ?_, ?_⟩
    · rw [(compute_value_keeps ops _ _ _ _ _ _).2, (compute_value_keeps ops _ _ _ _ _ _).2]
    · rw [(compute_value_keeps ops _ _ _ _ _ _).2, (compute_value_keeps ops _ _ _ _ _ _).2]
      show pos2 + w.length + pos = pos + w.length + pos2
      omega
  | no_fraction w rest hne hw hr hdot =>
    refine ⟨_, Scanned.no_fraction w rest hne hw hr hdot, rfl, rfl, ?_⟩
    show pos2 + w.length + 1 + pos = pos + w.length + 1 + pos2
    omega
  | real w f rest hne hw hfne hf hr hE he =>
    refine ⟨_, Scanned.real w f rest hne hw hfne hf hr hE he,
      compute_value_fst ops _ _ _ _ _ _ _, ?_, ?_⟩
    · rw [(compute_value_keeps ops _ _ _ _ _ _).2, (compute_value_keeps ops _ _ _ _ _ _).2]
    · rw [(compute_value_keeps ops _ _ _ _ _ _).2, (compute_value_keeps ops _ _ _ _ _ _).2]
      show pos2 + w.length + (fractionText f).length + pos =
        pos + w.length + (fractionText f).length + pos2
      omega
  | no_exponent w f m sg rest hne hw hf hm hsg hr hns =>
    refine ⟨_, Scanned.no_exponent w f m sg rest hne hw hf hm hsg hr hns, rfl, rfl, ?_⟩
    show pos2 + w.length + (fractionText f).length + 1 + sg.length + pos =
      pos + w.length + (fractionText f).length + 1 + sg.length + pos2
    omega
  | real_exponent w f m sg e rest hne hw hf hm hsg hene he hr =>
    refine ⟨_, Scanned.real_exponent w f m sg e rest hne hw hf hm hsg hene he hr,
      compute_value_fst ops _ _ _ _ _ _ _, ?_, ?_⟩
    · rw [(compute_value_keeps ops _ _ _ _ _ _).2, (compute_value_keeps ops _ _ _ _ _ _).2]
    · rw [(compute_value_keeps ops _ _ _ _ _ _).2, (compute_value_keeps ops _ _ _ _ _ _).2]
      show pos2 + w.length + (fractionText f).length + 1 + sg.length + e.length + pos =
        pos + w.length + (fractionText f).length + 1 + sg.length + e.length + pos2
      omega

/-- C14: the outcome of extract is a function of the characters under the cursor alone. Two
runs over the same character sequence, through fresh cursors at any two positions, yield the
same token (same type, same value or error kind, same text), leave the same characters
unconsumed and consume the same number of characters. -/
theorem extract_deterministic_in_span {D F : Type} (ops : FloatOps D F) (chars : List Char)
    (pos pos2 : Nat) :
    (extract ops (Token.fresh F) ⟨chars, pos2⟩).1 = (extract ops (Token.fresh F) ⟨chars, pos⟩).1 ∧
      (extract ops (Token.fresh F) ⟨chars, pos2⟩).2.chars =
        (extract ops (Token.fresh F) ⟨chars, pos⟩).2.chars ∧
      (extract ops (Token.fresh F) ⟨chars, pos2⟩).2.pos - pos2 =
        (extract ops (Token.fresh F) ⟨chars, pos⟩).2.pos - pos := by
  obtain ⟨r2, hs, h1, h2, h3⟩ := scanned_shift (extract_scanned ops (Token.fresh F) chars pos) pos2
  rw [scanned_sound hs]
  refine ⟨h1, h2, ?_⟩
  obtain ⟨run, _, _, hp⟩ := scanned_consumes (extract_scanned ops (Token.fresh F) chars pos)
  omega

/-! ## The watermark test -/

theorem natValue_append_ge (p q : List Char) : natValue p ≤ natValue (p ++ q) := by
  unfold natValue
  rw [List.foldl_append]
  exact foldl_value_ge q _

theorem isDigits_of_append_left {p q : List Char} (h : IsDigits (p ++ q)) : IsDigits p :=
  fun c hc => h c (List.mem_append_left q hc)

theorem accumulate_monotone (d : List Char) (v prev : Int) (hv : v ≥ prev)
    (h : (accumulate d v prev).1 ≥ (accumulate d v prev).2) (p q : List Char)
    (hd : d = p ++ q) :
    (accumulate p v prev).1 ≤ (accumulate d v prev).1 ∧
      (accumulate p v prev).1 ≥ (accumulate p v prev).2 := by
  induction d generalizing v prev p q with
  | nil =>
    have hp : p = [] := (List.append_eq_nil.mp hd.symm).1
    subst hp
    exact ⟨le_refl _, hv⟩
  | cons c cs ih =>
    have hstep : wrap32 (10 * v + digitOf c) ≥ v := by
      by_contra hlt
      have hlt2 : wrap32 (10 * v + digitOf c) < v := by omega
      simp only [accumulate, hv, if_true, accumulate_stopped cs _ _ hlt2] at h
      omega
    simp only [accumulate, hv, if_true] at h ⊢
    cases p with
    | nil =>
      have h0 := ih _ _ hstep h [] cs rfl
      simp only [accumulate] at h0 ⊢
      exact ⟨by omega, hv⟩
    | cons c2 p2 =>
      rw [List.cons_append] at hd
      have hc : c = c2 := (List.cons.inj hd).1
      have hcs : cs = p2 ++ q := (List.cons.inj hd).2
      subst hc
      simp only [accumulate, hv, if_true]
      exact ih _ _ hstep h p2 q hcs

/-- C15: for every string d of decimal digits, of any length and with any leading zeros, whose
value is at most 2147483647, compute_integer_value returns exactly that value and leaves the
token untouched (no error); the empty string returns 0 without error; and after every prefix
of d the accumulated value is the value of the prefix and the watermark test
integer_value >= prev_value passes. -/
theorem compute_integer_value_exact {F : Type} (tok : Token F) (d : List Char)
    (hd : IsDigits d) (hfit : natValue d ≤ 2147483647) :
    compute_integer_value tok d = (tok, (natValue d : Int)) ∧
      compute_integer_value tok [] = (tok, 0) ∧
      watermark_fires d = false ∧
      (∀ p q : List Char, d = p ++ q →
        (accumulate p 0 (-1)).1 = (natValue p : Int) ∧
        (accumulate p 0 (-1)).1 ≥ (accumulate p 0 (-1)).2) := by
  have h1 := compute_integer_value_fits tok d hd hfit
  refine ⟨h1, rfl, ?_, ?_⟩
  · have h2 := compute_integer_value_eq (Token.fresh Unit) d
    rw [compute_integer_value_fits (Token.fresh Unit) d hd hfit] at h2
    cases hf : watermark_fires d with
    | false => rfl
    | true =>
      rw [hf] at h2
      simp [Token.fresh] at h2
  · intro p q hpq
    have hp : IsDigits p := isDigits_of_append_left (hpq ▸ hd)
    have hle : natValue p ≤ 2147483647 :=
      le_trans (natValue_append_ge p q) (hpq ▸ hfit)
    have h := accumulate_fits p hp 0 (-1) (by omega) hle
    exact ⟨by simpa [natValue] using h.1, by simpa using h.2⟩

/-- C15 at the digits 0000000000002147483647 (leading zeros, more than ten digits): the
value 2147483647, no error. -/
theorem compute_integer_value_exact_witness :
    compute_integer_value (Token.fresh ℚ) "0000000000002147483647".toList =
      (Token.fresh ℚ, 2147483647) :=
  (compute_integer_value_exact (Token.fresh ℚ) "0000000000002147483647".toList (by decide)
    (by decide)).1

/-- C17: for every string d on which compute_integer_value sets no overflow error, the
returned value is non-negative, at most 2147483647, and at least the accumulated value of
every prefix of d, even when an intermediate multiply-add wrapped; consequently every
Integer(v) produced by extract has 0 <= v <= 2147483647. -/
theorem compute_integer_value_watermark {D F : Type} (ops : FloatOps D F) (tok : Token F)
    (d : List Char) (h : watermark_fires d = false) :
    compute_integer_value tok d = (tok, returned_value d) ∧
      0 ≤ returned_value d ∧ returned_value d ≤ 2147483647 ∧
      (∀ p q : List Char, d = p ++ q → (accumulate p 0 (-1)).1 ≤ returned_value d) ∧
      (∀ (chars : List Char) (pos : Nat) (v : Int),
        (extract ops (Token.fresh F) ⟨chars, pos⟩).1.value = some (.int v) →
          0 ≤ v ∧ v ≤ 2147483647) := by
  refine ⟨?_, returned_value_nonneg d, returned_value_le d, ?_, ?_⟩
  · rw [compute_integer_value_eq, h]
    simp
  · intro p q hpq
    by_cases hne : d = []
    · subst hne
      have hp : p = [] := (List.append_eq_nil.mp hpq.symm).1
      subst hp
      decide
    · have hge : (accumulate d 0 (-1)).1 ≥ (accumulate d 0 (-1)).2 := by
        unfold watermark_fires at h
        simp only [ne_eq, hne, not_false_eq_true, decide_True, Bool.true_and,
          decide_eq_false_iff_not] at h
        omega
      have hr : returned_value d = (accumulate d 0 (-1)).1 := by
        unfold returned_value compute_integer_value
        rw [if_neg hne]
        dsimp only
        rw [if_pos hge]
      rw [hr]
      exact (accumulate_monotone d 0 (-1) (by omega) hge p q hpq).1
  · intro chars pos v hv
    have hs := extract_scanned ops (Token.fresh F) chars pos
    generalize extract ops (Token.fresh F) ⟨chars, pos⟩ = r at hs hv
    cases hs with
    | no_digits rest hr => simp at hv
    | integer w rest hne hw hr =>
      rw [compute_value_integer_eq] at hv
      split at hv
      · simp at hv
      · simp only [Option.some.injEq, DataValue.int.injEq] at hv
        rw [← hv]
        exact ⟨returned_value_nonneg w, returned_value_le w⟩
    | no_fraction w rest hne hw hr hdot => simp at hv
    | real w f rest hne hw hfne hf hr hE he =>
      rw [compute_value_real_eq] at hv
      split at hv
      · simp at hv
      · split at hv <;> simp at hv
    | no_exponent w f m sg rest hne hw hf hm hsg hr hns => simp at hv
    | real_exponent w f m sg e rest hne hw hf hm hsg hene he hr =>
      rw [compute_value_real_eq] at hv
      split at hv
      · simp at hv
      · split at hv <;> simp at hv

/-- C17 at the ten digits 9999999999, where the accumulation wraps without the test firing:
the returned value 1410065407 is at least the accumulated value 999999999 of the first nine
digits. -/
theorem compute_integer_value_watermark_witness :
    0 ≤ returned_value "9999999999".toList ∧
      (accumulate "999999999".toList 0 (-1)).1 ≤ returned_value "9999999999".toList :=
  have h := compute_integer_value_watermark exactOps (Token.fresh ℚ) "9999999999".toList
    (by decide)
  ⟨h.2.1, h.2.2.2.1 "999999999".toList "9".toList (by decide)⟩

/-! ## The saw_dot_dot guard -/

theorem extract_exponent_unguarded_eq {D F : Type} (ops : FloatOps D F) (tok : Token F)
    (src : Source) (w f : List Char) :
    extract_exponent_unguarded ops tok src w f = extract_exponent ops tok src w f false := by
  unfold extract_exponent_unguarded extract_exponent
  simp only [Bool.not_false, Bool.true_and]

theorem extract_exponent_at_dot {D F : Type} (ops : FloatOps D F) (tok : Token F)
    (src : Source) (w f : List Char) (h : src.current_char = '.') :
    extract_exponent ops tok src w f true = extract_exponent ops tok src w f false := by
  have hE : firstChar src.chars ≠ 'E' := by
    have h2 : firstChar src.chars = '.' := h
    rw [h2]; decide
  have he : firstChar src.chars ≠ 'e' := by
    have h2 : firstChar src.chars = '.' := h
    rw [h2]; decide
  rw [extract_exponent_none ops tok src w f true (Or.inl rfl),
    extract_exponent_none ops tok src w f false (Or.inr ⟨hE, he⟩)]

/-- C20: the variant of extract whose exponent test does not consult saw_dot_dot behaves
identically for every token and cursor (same token, hence same outcome and text, and same
final cursor), because whenever saw_dot_dot is true the current character is a dot, on which
the exponent step does the same with and without the guard. -/
theorem extract_unguarded_eq {D F : Type} (ops : FloatOps D F) (tok : Token F)
    (src : Source) :
    extract_unguarded ops tok src = extract ops tok src ∧
      (∀ (t : Token F) (s : Source) (w f : List Char), s.current_char = '.' →
        extract_exponent ops t s w f true = extract_exponent_unguarded ops t s w f) := by
  constructor
  · unfold extract_unguarded extract
    simp only [extract_exponent_unguarded_eq]
    by_cases h0 : (unsigned_integer_digits { tok with type := TokenType.JT_INTEGER } src).2.1.type
        = TokenType.JT_ERROR
    · simp only [h0, if_true]
    · simp only [h0, if_false]
      by_cases h1 : (unsigned_integer_digits { tok with type := TokenType.JT_INTEGER }
          src).2.2.current_char = '.'
      · simp only [h1, if_true]
        by_cases h2 : (unsigned_integer_digits { tok with type := TokenType.JT_INTEGER }
            src).2.2.peek_char = '.'
        · simp only [h2, if_true]
          exact (extract_exponent_at_dot ops _ _ _ _ h1).symm
        · simp only [h2, if_false]
      · simp only [h1, if_false]
  · intro t s w f h
    rw [extract_exponent_unguarded_eq]
    exact extract_exponent_at_dot ops t s w f h

/-! ## What the real range check admits -/

theorem digitChar_digit (k : Nat) (hk : k < 10) :
    isdigit (Nat.digitChar k) = true ∧ (Nat.digitChar k).toNat - 48 = k := by
  interval_cases k <;> decide

theorem toDigitsCore_spec (fuel n : Nat) (ds : List Char) (h : n < fuel) :
    ∃ pre, Nat.toDigitsCore 10 fuel n ds = pre ++ ds ∧ pre ≠ [] ∧ IsDigits pre ∧
      natValue pre = n := by
  induction fuel generalizing n ds with
  | zero => omega
  | succ fuel ih =>
    have hd := digitChar_digit (n % 10) (Nat.mod_lt n (by decide))
    unfold Nat.toDigitsCore
    by_cases h0 : n / 10 = 0
    · simp only [h0, if_true]
      refine ⟨[Nat.digitChar (n % 10)], rfl, List.cons_ne_nil _ _, ?_, ?_⟩
      · intro c hc
        rw [List.mem_singleton.mp hc]
        exact hd.1
      · simp only [natValue, List.foldl_cons, List.foldl_nil, hd.2]
        omega
    · simp only [h0, if_false]
      obtain ⟨pre, hpre, hne, hdig, hval⟩ := ih (n / 10) (Nat.digitChar (n % 10) :: ds)
        (by omega)
      refine ⟨pre ++ [Nat.digitChar (n % 10)], by rw [hpre]; simp, by simp, ?_, ?_⟩
      · intro c hc
        rcases List.mem_append.mp hc with h1 | h1
        · exact hdig c h1
        · rw [List.mem_singleton.mp h1]
          exact hd.1
      · unfold natValue at hval ⊢
        rw [List.foldl_append, hval]
        simp only [List.foldl_cons, List.foldl_nil, hd.2]
        omega

theorem toDigits_spec (n : Nat) :
    Nat.toDigits 10 n ≠ [] ∧ IsDigits (Nat.toDigits 10 n) ∧ natValue (Nat.toDigits 10 n) = n := by
  obtain ⟨pre, hpre, hne, hdig, hval⟩ := toDigitsCore_spec (n + 1) n [] (by omega)
  unfold Nat.toDigits
  rw [hpre, List.append_nil]
  exact ⟨hne, hdig, hval⟩

theorem isDigits_replicate_zero (n : Nat) : IsDigits (List.replicate n '0') := by
  intro c hc
  rw [List.eq_of_mem_replicate hc]
  decide

theorem natValue_replicate_zero (n a : Nat) :
    List.foldl (fun n c => 10 * n + (c.toNat - 48)) a (List.replicate n '0') = a * 10 ^ n := by
  induction n generalizing a with
  | zero => simp
  | succ n ih =>
    rw [List.replicate_succ, List.foldl_cons, ih]
    have h0 : ('0' : Char).toNat - 48 = 0 := by decide
    rw [h0, pow_succ]
    ring

theorem mantissa_replicate_zero (n : Nat) (a : ℚ) :
    List.foldl (fun float_value c => exactOps.add (exactOps.mul (exactOps.ofInt 10) float_value)
      (exactOps.ofInt (digitOf c))) a (List.replicate n '0') = a * 10 ^ n := by
  induction n generalizing a with
  | zero => simp
  | succ n ih =>
    rw [List.replicate_succ, List.foldl_cons, ih]
    have h0 : digitOf '0' = 0 := by decide
    rw [h0, pow_succ]
    simp only [exactOps]
    push_cast
    ring

theorem mantissa_one_zeros (n : Nat) :
    mantissa exactOps ('1' :: List.replicate n '0') = (10 : ℚ) ^ n := by
  unfold mantissa
  rw [List.foldl_cons, mantissa_replicate_zero]
  have h1 : digitOf '1' = 1 := by decide
  rw [h1]
  simp [exactOps]

theorem watermark_fires_of_fits (d : List Char) (hd : IsDigits d)
    (hfit : natValue d ≤ 2147483647) : watermark_fires d = false := by
  have h2 := compute_integer_value_eq (Token.fresh Unit) d
  rw [compute_integer_value_fits (Token.fresh Unit) d hd hfit] at h2
  cases hf : watermark_fires d with
  | false => rfl
  | true =>
    rw [hf] at h2
    simp [Token.fresh] at h2

theorem one_point_zeros_shape (n : Nat) (hn : 1 ≤ n) (e : List Char) :
    '1' :: '.' :: (List.replicate n '0' ++ 'e' :: e) =
      ['1'] ++ (fractionText (List.replicate n '0') ++ ('e' :: ([] ++ (e ++ [])))) := by
  have hne : List.replicate n '0' ≠ [] := by
    intro h
    have := congrArg List.length h
    simp at this
    omega
  simp [fractionText, hne]

/-- C18 (as amended): for every n with 1 <= n and 36 + n <= 2147483647 (so that the
exponent digits accumulate in a 32-bit int without overflow), the literal 1. followed by n
zeros, e and the decimal digits of 36 + n passes the range check (the fraction length is
subtracted from the exponent, giving 36 + 1 = 37) and is accepted as Real with no error, the
value being the mantissa of 1 followed by n zeros scaled by 10^36; in exact arithmetic this is
10^(36+n), the exact decimal value of the literal, which exceeds 10^38 for n >= 3. -/
theorem range_check_admits_large_values {D F : Type} (ops : FloatOps D F) (n : Nat)
    (hn : 1 ≤ n) (hb : 36 + n ≤ 2147483647) :
    (extract ops (Token.fresh F)
        ⟨'1' :: '.' :: (List.replicate n '0' ++ 'e' :: Nat.toDigits 10 (36 + n)), 0⟩).1 =
      ⟨.JT_DOUBLE, '1' :: '.' :: (List.replicate n '0' ++ 'e' :: Nat.toDigits 10 (36 + n)),
        some (.float (ops.narrow (ops.mul (mantissa ops ('1' :: List.replicate n '0'))
          (ops.pow10 36))))⟩ ∧
    abs32 (wrap32 (adjust_exponent (returned_value (Nat.toDigits 10 (36 + n)))
      (List.replicate n '0') '+' + wrap32 ((['1'].length : Nat) : Int))) = 37 ∧
    exactOps.narrow (exactOps.mul (mantissa exactOps ('1' :: List.replicate n '0'))
      (exactOps.pow10 36)) = (10 : ℚ) ^ (36 + n) ∧
    denotation ['1'] (List.replicate n '0') ((36 + n : Nat) : Int) = (10 : ℚ) ^ (36 + n) ∧
    (3 ≤ n → (10 : ℚ) ^ (36 + n) > (10 : ℚ) ^ 38) := by
  obtain ⟨hene, he, hval⟩ := toDigits_spec (36 + n)
  have hfne : List.replicate n '0' ≠ [] := by
    intro h
    have := congrArg List.length h
    simp at this
    omega
  have hret : returned_value (Nat.toDigits 10 (36 + n)) = ((36 + n : Nat) : Int) := by
    rw [returned_value_fits _ he (by omega), hval]
  have hfire : watermark_fires (Nat.toDigits 10 (36 + n)) = false :=
    watermark_fires_of_fits _ he (by omega)
  have hX : adjust_exponent (returned_value (Nat.toDigits 10 (36 + n)))
      (List.replicate n '0') '+' = 36 := by
    rw [hret]
    unfold adjust_exponent
    have hs : ¬ ('+' = '-') := by decide
    simp only [hs, if_false, ne_eq, hfne, not_false_eq_true, if_true, List.length_replicate]
    have : ((36 + n : Nat) : Int) - (n : Int) = 36 := by push_cast; ring
    rw [this]
    decide
  have hpass : ¬ (abs32 (wrap32 (36 + wrap32 ((['1'].length : Nat) : Int))) > MAX_EXPONENT) := by
    decide
  refine ⟨?_, ?_, ?_, ?_, ?_⟩
  · rw [one_point_zeros_shape n hn,
      extract_with_exponent ops (Token.fresh F) ['1'] (List.replicate n '0') 'e' []
        (Nat.toDigits 10 (36 + n)) [] 0 (by decide) (by decide) (isDigits_replicate_zero n)
        (Or.inr rfl) (Or.inl rfl) hene he (by decide),
      compute_value_real_eq]
    have hs : signOf [] = '+' := rfl
    rw [hs, hX, if_neg hpass, hfire]
    simp [Token.fresh, hfne, fractionText]
  · rw [hX]
    decide
  · rw [mantissa_one_zeros]
    simp only [exactOps]
    rw [pow_add, mul_comm]
    norm_cast
  · unfold denotation natValue
    rw [List.cons_append, List.nil_append, List.foldl_cons, natValue_replicate_zero,
      List.length_replicate]
    have h1 : ('1' : Char).toNat - 48 = 1 := by decide
    have h2 : ((36 + n : Nat) : Int) - (n : Int) = ((36 : Nat) : Int) := by push_cast; ring
    rw [h1, h2, zpow_natCast, pow_add]
    push_cast
    ring
  · intro h3
    exact pow_lt_pow_right₀ (by norm_num) (by omega)

/-- C18 (as amended) at n = 3, the literal 1.000e39: accepted as Real although it denotes
10^39. -/
theorem range_check_admits_large_values_witness :
    (extract exactOps (Token.fresh ℚ) ⟨"1.000e39".toList, 0⟩).1.type = .JT_DOUBLE ∧
      denotation "1".toList "000".toList 39 = (10 : ℚ) ^ 39 := by
  have h := range_check_admits_large_values exactOps 3 (by decide) (by decide)
  have hin : '1' :: '.' :: (List.replicate 3 '0' ++ 'e' :: Nat.toDigits 10 (36 + 3)) =
      "1.000e39".toList := by decide
  rw [hin] at h
  refine ⟨?_, h.2.2.2.1⟩
  rw [h.1]

/-- C18 (counterexample): at n = 2147483612 the exponent digits are 2147483648, the watermark
test fires on them, and the literal 1. followed by n zeros and e2147483648 is not accepted:
extract yields an error. -/
theorem range_check_rejects_huge_exponent :
    Nat.toDigits 10 (36 + 2147483612) = "2147483648".toList ∧
      (extract exactOps (Token.fresh ℚ)
        ⟨'1' :: '.' :: (List.replicate 2147483612 '0' ++
          'e' :: Nat.toDigits 10 (36 + 2147483612)), 0⟩).1.type = .JT_ERROR := by
  have hd : Nat.toDigits 10 (36 + 2147483612) = "2147483648".toList := by decide
  refine ⟨hd, ?_⟩
  rw [hd, one_point_zeros_shape 2147483612 (by decide),
    extract_with_exponent exactOps (Token.fresh ℚ) ['1'] (List.replicate 2147483612 '0') 'e' []
      "2147483648".toList [] 0 (by decide) (by decide) (isDigits_replicate_zero _)
      (Or.inr rfl) (Or.inl rfl) (by decide) (by decide) (by decide),
    compute_value_real_eq]
  have hfire : watermark_fires "2147483648".toList = true := by decide
  rw [hfire]
  split
  · rfl
  · rfl

/-- C19: acceptance by the real range check is not a function of the value denoted. The
literals 1e37 and 1.0e37 both denote 10^37; on 1e37 extract yields Error(RealOutOfRange)
(37 + 1 = 38 > 37), on 1.0e37 it yields a Real (37 - 1 + 1 = 37), computed as the mantissa of
10 scaled by 10^36, which in exact arithmetic is 10^37. -/
theorem range_check_depends_on_spelling {D F : Type} (ops : FloatOps D F) :
    (extract ops (Token.fresh F) ⟨"1e37".toList, 0⟩).1 =
        ⟨.JT_ERROR, "1e37".toList, some (.code .RANGE_REAL)⟩ ∧
      (extract ops (Token.fresh F) ⟨"1.0e37".toList, 0⟩).1 =
        ⟨.JT_DOUBLE, "1.0e37".toList,
          some (.float (ops.narrow (ops.mul (mantissa ops "10".toList) (ops.pow10 36))))⟩ ∧
      abs32 (wrap32 (adjust_exponent (returned_value "37".toList) [] '+'
        + wrap32 (("1".toList).length : Int))) = 38 ∧
      abs32 (wrap32 (adjust_exponent (returned_value "37".toList) "0".toList '+'
        + wrap32 (("1".toList).length : Int))) = 37 ∧
      denotation "1".toList [] 37 = (10 : ℚ) ^ 37 ∧
      denotation "1".toList "0".toList 37 = (10 : ℚ) ^ 37 ∧
      exactOps.narrow (exactOps.mul (mantissa exactOps "10".toList) (exactOps.pow10 36)) =
        (10 : ℚ) ^ 37 := by
  have hfire : watermark_fires "37".toList = false := by decide
  have d0 : digitOf '0' = 0 := by decide
  have d1 : digitOf '1' = 1 := by decide
  have n1 : natValue ("1".toList ++ []) = 1 := by decide
  have n10 : natValue ("1".toList ++ "0".toList) = 10 := by decide
  have hm : mantissa exactOps "10".toList = 10 := by
    have hs : "10".toList = ['1', '0'] := by decide
    rw [hs]
    norm_num [exactOps, mantissa, d0, d1]
  refine ⟨?_, ?_, by decide, by decide, ?_, ?_, ?_⟩
  · have h := extract_with_exponent ops (Token.fresh F) "1".toList [] 'e' [] "37".toList [] 0
      (by decide) (by decide) (by decide) (Or.inr rfl) (Or.inl rfl) (by decide) (by decide)
      (by decide)
    have hin : "1".toList ++ (fractionText [] ++ ('e' :: ([] ++ ("37".toList ++ [])))) =
        "1e37".toList := by decide
    have hc : abs32 (wrap32 (adjust_exponent (returned_value "37".toList) [] (signOf [])
        + wrap32 (("1".toList).length : Int))) > MAX_EXPONENT := by decide
    rw [hin] at h
    rw [h, compute_value_real_eq, if_pos hc]
    have htext : [] ++ "1".toList ++ fractionText [] ++ ['e'] ++ [] ++ "37".toList =
        "1e37".toList := by decide
    simp only [Token.fresh, htext]
  · have h := extract_with_exponent ops (Token.fresh F) "1".toList "0".toList 'e' []
      "37".toList [] 0 (by decide) (by decide) (by decide) (Or.inr rfl) (Or.inl rfl)
      (by decide) (by decide) (by decide)
    have hin : "1".toList ++ (fractionText "0".toList ++ ('e' :: ([] ++ ("37".toList ++ [])))) =
        "1.0e37".toList := by decide
    have hX : adjust_exponent (returned_value "37".toList) "0".toList (signOf []) = 36 := by
      decide
    have hc : ¬ (abs32 (wrap32 (36 + wrap32 (("1".toList).length : Int))) > MAX_EXPONENT) := by
      decide
    have hd : (if "0".toList ≠ [] then "1".toList ++ "0".toList else "1".toList)
        = "10".toList := by decide
    rw [hin] at h
    rw [h, compute_value_real_eq, hX, if_neg hc, hfire, hd]
    have htext : [] ++ "1".toList ++ fractionText "0".toList ++ ['e'] ++ [] ++ "37".toList =
        "1.0e37".toList := by decide
    simp only [Token.fresh, htext]
    simp
  · unfold denotation
    rw [n1]
    norm_num
  · unfold denotation
    rw [n10]
    have hl : (("0".toList).length : Int) = 1 := by decide
    rw [hl]
    norm_num
  · rw [hm]
    norm_num [exactOps]

/-! ## Longest match -/

theorem digits_prefix_unique (a a2 x y : List Char) (ha : IsDigits a) (ha2 : IsDigits a2)
    (hx : StopsDigits x) (hy : StopsDigits y) (h : a ++ x = a2 ++ y) : a = a2 ∧ x = y := by
  induction a generalizing a2 with
  | nil =>
    cases a2 with
    | nil => exact ⟨rfl, h⟩
    | cons c t =>
      rw [List.nil_append, List.cons_append] at h
      have hc : isdigit c = true := ha2 c (List.mem_cons_self c t)
      unfold StopsDigits at hx
      rw [h, firstChar_cons, hc] at hx
      exact absurd hx (by decide)
  | cons c t ih =>
    have hc : isdigit c = true := ha c (List.mem_cons_self c t)
    cases a2 with
    | nil =>
      rw [List.nil_append, List.cons_append] at h
      unfold StopsDigits at hy
      rw [← h, firstChar_cons, hc] at hy
      exact absurd hy (by decide)
    | cons c2 t2 =>
      rw [List.cons_append, List.cons_append] at h
      have h1 := (List.cons.inj h).1
      have h2 := (List.cons.inj h).2
      have hi := ih t2 (fun d hd => ha d (List.mem_cons_of_mem c hd))
        (fun d hd => ha2 d (List.mem_cons_of_mem c2 hd)) h2
      exact ⟨by rw [h1, hi.1], hi.2⟩

theorem firstChar_of_nonempty_prefix {ext rest : List Char} (hne : ext ≠ [])
    (hp : ext <+: rest) : firstChar ext = firstChar rest := by
  obtain ⟨t, ht⟩ := hp
  cases ext with
  | nil => exact absurd rfl hne
  | cons c cs =>
    rw [← ht, List.cons_append, firstChar_cons, firstChar_cons]

theorem exponent_part_first {ex : List Char} (h : IsExponentPart ex) :
    ex = [] ∨ firstChar ex = 'E' ∨ firstChar ex = 'e' := by
  rcases h with h | ⟨m, sg, e, hex, hm, _, _, _⟩
  · exact Or.inl h
  · rw [hex, firstChar_cons]
    exact Or.inr hm

theorem exponent_part_stops {ex : List Char} (h : IsExponentPart ex) :
    StopsDigits ex ∧ firstChar ex ≠ '.' := by
  rcases exponent_part_first h with h1 | h1 | h1
  · subst h1
    exact ⟨not_isdigit_END_OF_FILE, by decide⟩
  · unfold StopsDigits
    rw [h1]
    exact ⟨by decide, by decide⟩
  · unfold StopsDigits
    rw [h1]
    exact ⟨by decide, by decide⟩

theorem fraction_exponent_stops (f : List Char) {ex : List Char} (h : IsExponentPart ex) :
    StopsDigits (fractionText f ++ ex) := by
  by_cases hf : f = []
  · simp only [fractionText, hf, if_true, List.nil_append]
    exact (exponent_part_stops h).1
  · simp only [fractionText, hf, if_false, List.cons_append]
    show isdigit '.' = false
    decide

theorem fraction_unique (f f2 x y : List Char) (hf : IsDigits f) (hf2 : IsDigits f2)
    (hx : StopsDigits x) (hxd : firstChar x ≠ '.') (hy : StopsDigits y)
    (hyd : firstChar y ≠ '.') (h : fractionText f ++ x = fractionText f2 ++ y) : x = y := by
  by_cases h1 : f = []
  · by_cases h2 : f2 = []
    · simpa [fractionText, h1, h2] using h
    · simp only [fractionText, h1, h2, if_true, if_false, List.nil_append,
        List.cons_append] at h
      rw [h, firstChar_cons] at hxd
      exact absurd rfl hxd
  · by_cases h2 : f2 = []
    · simp only [fractionText, h1, h2, if_true, if_false, List.nil_append,
        List.cons_append] at h
      rw [← h, firstChar_cons] at hyd
      exact absurd rfl hyd
    · simp only [fractionText, h1, h2, if_false, List.cons_append] at h
      exact (digits_prefix_unique f f2 x y hf hf2 hx hy (List.cons.inj h).2).2

theorem exponent_digits_maximal (sg sg2 e e2 ext : List Char)
    (hsg : sg = [] ∨ sg = ['+'] ∨ sg = ['-']) (hsg2 : sg2 = [] ∨ sg2 = ['+'] ∨ sg2 = ['-'])
    (hene : e ≠ []) (he : IsDigits e) (hene2 : e2 ≠ []) (he2 : IsDigits e2)
    (hext : ext ≠ []) (hstop : StopsDigits ext)
    (h : sg ++ (e ++ ext) = sg2 ++ e2) : False := by
  have hfirst : ∀ {l t : List Char}, l ≠ [] → IsDigits l → isdigit (firstChar (l ++ t)) = true := by
    intro l t hl hd
    cases l with
    | nil => exact absurd rfl hl
    | cons c cs =>
      rw [List.cons_append, firstChar_cons]
      exact hd c (List.mem_cons_self c cs)
  have hbase : e ++ ext = e2 → False := by
    intro h2
    have h3 : e ++ ext = e2 ++ [] := by rw [List.append_nil]; exact h2
    exact hext (digits_prefix_unique e e2 ext [] he he2 hstop not_isdigit_END_OF_FILE h3).2
  have hsign : ∀ s : Char, (s = '+' ∨ s = '-') → isdigit s = false := by
    intro s hs
    rcases hs with h1 | h1 <;> rw [h1] <;> decide
  have hcases : ∀ {g : List Char}, (g = [] ∨ g = ['+'] ∨ g = ['-']) →
      g = [] ∨ ∃ s, g = [s] ∧ isdigit s = false := by
    intro g hg
    rcases hg with h1 | h1 | h1
    · exact Or.inl h1
    · exact Or.inr ⟨'+', h1, by decide⟩
    · exact Or.inr ⟨'-', h1, by decide⟩
  rcases hcases hsg with h1 | ⟨s, h1, hs⟩ <;> rcases hcases hsg2 with h2 | ⟨s2, h2, hs2⟩
  · subst h1; subst h2
    exact hbase h
  · subst h1; subst h2
    rw [List.nil_append, List.singleton_append] at h
    have hd := hfirst (t := ext) hene he
    rw [h, firstChar_cons, hs2] at hd
    exact absurd hd (by decide)
  · subst h1; subst h2
    rw [List.nil_append, List.singleton_append] at h
    have hd := hfirst (t := []) hene2 he2
    rw [List.append_nil, ← h, firstChar_cons, hs] at hd
    exact absurd hd (by decide)
  · subst h1; subst h2
    rw [List.singleton_append, List.singleton_append] at h
    exact hbase (List.cons.inj h).2

theorem integer_maximal (w rest ext : List Char) (hw : IsDigits w)
    (hr : EndsLiteral rest ∨ (firstChar rest = '.' ∧ firstChar rest.tail = '.'))
    (hext : ext ≠ []) (hp : ext <+: rest) : ¬ IsLiteral (w ++ ext) := by
  rintro ⟨w2, f2, ex2, heq, _, hw2, hf2, hex2⟩
  have hfc := firstChar_of_nonempty_prefix hext hp
  have hstop : StopsDigits ext := by
    unfold StopsDigits
    rw [hfc]
    rcases hr with h | h
    · exact h.1
    · rw [h.1]; decide
  have hu := (digits_prefix_unique w w2 ext (fractionText f2 ++ ex2) hw hw2 hstop
    (fraction_exponent_stops f2 hex2) heq).2
  by_cases hfe : f2 = []
  · simp only [fractionText, hfe, if_true, List.nil_append] at hu
    rcases exponent_part_first hex2 with h1 | h1 | h1
    · exact hext (hu.trans h1)
    · rw [← hu, hfc] at h1
      rcases hr with h | h
      · exact h.2.2.1 h1
      · rw [h.1] at h1
        exact absurd h1 (by decide)
    · rw [← hu, hfc] at h1
      rcases hr with h | h
      · exact h.2.2.2 h1
      · rw [h.1] at h1
        exact absurd h1 (by decide)
  · simp only [fractionText, hfe, if_false, List.cons_append] at hu
    have hdot : firstChar rest = '.' := by
      rw [← hfc, hu, firstChar_cons]
    rcases hr with h | h
    · exact h.2.1 hdot
    · obtain ⟨t, ht⟩ := hp
      cases f2 with
      | nil => exact hfe rfl
      | cons c cs =>
        have hc : isdigit c = true := hf2 c (List.mem_cons_self c cs)
        rw [hu] at ht
        have h2 := h.2
        rw [← ht] at h2
        simp only [List.cons_append, List.tail_cons, firstChar_cons] at h2
        rw [h2] at hc
        exact absurd hc (by decide)

theorem real_maximal (w f rest ext : List Char) (hw : IsDigits w) (hfne : f ≠ [])
    (hf : IsDigits f) (hr : StopsDigits rest) (hE : firstChar rest ≠ 'E')
    (he : firstChar rest ≠ 'e') (hext : ext ≠ []) (hp : ext <+: rest) :
    ¬ IsLiteral (w ++ (fractionText f ++ ext)) := by
  rintro ⟨w2, f2, ex2, heq, _, hw2, hf2, hex2⟩
  have hfc := firstChar_of_nonempty_prefix hext hp
  have hstop : StopsDigits ext := by
    unfold StopsDigits
    rw [hfc]
    exact hr
  have hdotstop : StopsDigits (fractionText f ++ ext) := by
    simp only [fractionText, hfne, if_false, List.cons_append]
    show isdigit '.' = false
    decide
  have hu := (digits_prefix_unique w w2 _ _ hw hw2 hdotstop
    (fraction_exponent_stops f2 hex2) heq).2
  by_cases hfe : f2 = []
  · simp only [fractionText, hfne, hfe, if_true, if_false, List.nil_append,
      List.cons_append] at hu
    have hd := (exponent_part_stops hex2).2
    rw [← hu, firstChar_cons] at hd
    exact hd rfl
  · simp only [fractionText, hfne, hfe, if_false, List.cons_append] at hu
    have hu2 := (digits_prefix_unique f f2 ext ex2 hf hf2 hstop (exponent_part_stops hex2).1
      (List.cons.inj hu).2).2
    rcases exponent_part_first hex2 with h1 | h1 | h1
    · exact hext (hu2.trans h1)
    · rw [← hu2, hfc] at h1
      exact hE h1
    · rw [← hu2, hfc] at h1
      exact he h1

theorem real_exponent_maximal (w f : List Char) (m : Char) (sg e rest ext : List Char)
    (hw : IsDigits w) (hf : IsDigits f) (hm : m = 'E' ∨ m = 'e')
    (hsg : sg = [] ∨ sg = ['+'] ∨ sg = ['-']) (hene : e ≠ []) (he : IsDigits e)
    (hr : StopsDigits rest) (hext : ext ≠ []) (hp : ext <+: rest) :
    ¬ IsLiteral (w ++ (fractionText f ++ (m :: (sg ++ (e ++ ext))))) := by
  rintro ⟨w2, f2, ex2, heq, _, hw2, hf2, hex2⟩
  have hfc := firstChar_of_nonempty_prefix hext hp
  have hstop : StopsDigits ext := by
    unfold StopsDigits
    rw [hfc]
    exact hr
  have hms := marker_stops m (sg ++ (e ++ ext)) hm
  have hstop1 : StopsDigits (fractionText f ++ (m :: (sg ++ (e ++ ext)))) := by
    by_cases hfe : f = []
    · simp only [fractionText, hfe, if_true, List.nil_append]
      exact hms.1
    · simp only [fractionText, hfe, if_false, List.cons_append]
      show isdigit '.' = false
      decide
  have hu := (digits_prefix_unique w w2 _ _ hw hw2 hstop1
    (fraction_exponent_stops f2 hex2) heq).2
  have hu2 := fraction_unique f f2 _ _ hf hf2 hms.1 hms.2 (exponent_part_stops hex2).1
    (exponent_part_stops hex2).2 hu
  rcases hex2 with h1 | ⟨m2, sg2, e2, hex, hm2, hsg2, hene2, he2⟩
  · rw [h1] at hu2
    exact List.cons_ne_nil _ _ hu2
  · rw [hex] at hu2
    exact exponent_digits_maximal sg sg2 e e2 ext hsg hsg2 hene he hene2 he2 hext hstop
      (List.cons.inj hu2).2

theorem compute_value_success {D F : Type} (ops : FloatOps D F) (tok : Token F)
    (src : Source) (w f e : List Char) (s : Char)
    (h : (compute_value ops tok src w f e s).1.type = .JT_INTEGER ∨
      (compute_value ops tok src w f e s).1.type = .JT_DOUBLE) :
    (compute_value ops tok src w f e s).1.type = tok.type := by
  rcases compute_value_type ops tok src w f e s with h1 | h1
  · exact h1
  · rw [h1] at h
    rcases h with h | h <;> exact absurd h (by decide)

theorem scanned_longest {D F : Type} {ops : FloatOps D F} {tok : Token F} {pos : Nat}
    {chars : List Char} {r : Token F × Source} (h : Scanned ops tok pos chars r)
    (htxt : tok.text = [])
    (hsucc : r.1.type = .JT_INTEGER ∨ r.1.type = .JT_DOUBLE) :
    isdigit r.2.current_char = false ∧
    (r.1.type = .JT_INTEGER → r.2.current_char ≠ 'E' ∧ r.2.current_char ≠ 'e' ∧
      (r.2.current_char = '.' → r.2.peek_char = '.')) ∧
    (r.1.type = .JT_DOUBLE → 'E' ∉ r.1.text → 'e' ∉ r.1.text →
      r.2.current_char ≠ 'E' ∧ r.2.current_char ≠ 'e') ∧
    IsLiteral r.1.text ∧
    (∀ ext, ext ≠ [] → ext <+: r.2.chars → ¬ IsLiteral (r.1.text ++ ext)) := by
  cases h with
  | no_digits rest hr =>
    rcases hsucc with h | h
    · exact absurd h error_ne_integer
    · exact absurd h error_ne_double
  | no_fraction w rest hne hw hr hdot =>
    rcases hsucc with h | h
    · exact absurd h error_ne_integer
    · exact absurd h error_ne_double
  | no_exponent w f m sg rest hne hw hf hm hsg hr hns =>
    rcases hsucc with h | h
    · exact absurd h error_ne_integer
    · exact absurd h error_ne_double
  | integer w rest hne hw hr =>
    have hty := compute_value_success ops _ _ _ _ _ _ hsucc
    have hk := compute_value_keeps ops ⟨.JT_INTEGER, tok.text ++ w, tok.value⟩
      ⟨rest, pos + w.length⟩ w [] [] '+'
    rw [hty, hk.1, hk.2]
    have htext : tok.text ++ w = w := by rw [htxt]; rfl
    simp only [htext, Source.current_char, Source.peek_char]
    have hstop : isdigit (firstChar rest) = false := by
      rcases hr with h | h
      · exact h.1
      · rw [h.1]; decide
    refine ⟨hstop, fun _ => ?_, fun h => absurd h (by decide), ?_, ?_⟩
    · rcases hr with h | h
      · exact ⟨h.2.2.1, h.2.2.2, fun hd => absurd hd h.2.1⟩
      · rw [h.1]
        exact ⟨by decide, by decide, fun _ => h.2⟩
    · exact ⟨w, [], [], by simp [fractionText], hne, hw, fun c hc => (by cases hc), Or.inl rfl⟩
    · intro ext hext hp
      exact integer_maximal w rest ext hw hr hext hp
  | real w f rest hne hw hfne hf hr hE he =>
    have hty := compute_value_success ops _ _ _ _ _ _ hsucc
    have hk := compute_value_keeps ops ⟨.JT_DOUBLE, tok.text ++ w ++ fractionText f, tok.value⟩
      ⟨rest, pos + w.length + (fractionText f).length⟩ w f [] '+'
    rw [hty, hk.1, hk.2]
    have htext : tok.text ++ w ++ fractionText f = w ++ fractionText f := by rw [htxt]; rfl
    simp only [htext, Source.current_char, Source.peek_char]
    refine ⟨hr, fun h => absurd h (by decide), fun _ _ _ => ⟨hE, he⟩, ?_, ?_⟩
    · exact ⟨w, f, [], by simp, hne, hw, hf, Or.inl rfl⟩
    · intro ext hext hp
      rw [List.append_assoc]
      exact real_maximal w f rest ext hw hfne hf hr hE he hext hp
  | real_exponent w f m sg e rest hne hw hf hm hsg hene he hr =>
    have hty := compute_value_success ops _ _ _ _ _ _ hsucc
    have hk := compute_value_keeps ops
      ⟨.JT_DOUBLE, tok.text ++ w ++ fractionText f ++ [m] ++ sg ++ e, tok.value⟩
      ⟨rest, pos + w.length + (fractionText f).length + 1 + sg.length + e.length⟩
      w f e (signOf sg)
    rw [hty, hk.1, hk.2]
    have htext : tok.text ++ w ++ fractionText f ++ [m] ++ sg ++ e =
        w ++ (fractionText f ++ (m :: (sg ++ e))) := by rw [htxt]; simp
    simp only [htext, Source.current_char, Source.peek_char]
    refine ⟨hr, fun h => absurd h (by decide), ?_, ?_, ?_⟩
    · intro _ hnE hne2
      have hmem : ∀ c, c = m → c ∈ w ++ (fractionText f ++ (m :: (sg ++ e))) := by
        intro c hc
        rw [hc]
        simp
      rcases hm with h | h
      · exact absurd (hmem 'E' h.symm) hnE
      · exact absurd (hmem 'e' h.symm) hne2
    · exact ⟨w, f, m :: (sg ++ e), rfl, hne, hw, hf, Or.inr ⟨m, sg, e, rfl, hm, hsg, hene, he⟩⟩
    · intro ext hext hp
      have hshape : w ++ (fractionText f ++ (m :: (sg ++ e))) ++ ext =
          w ++ (fractionText f ++ (m :: (sg ++ (e ++ ext)))) := by simp
      rw [hshape]
      exact real_exponent_maximal w f m sg e rest ext hw hf hm hsg hene he hr hext hp

/-- C16: for every input on which extract succeeds (Integer or Real), the character left
under the cursor is not a decimal digit; after an Integer it is not an exponent marker and it
is a dot only when the character after it is a dot as well; after a Real whose text holds no
exponent marker it is not an exponent marker. The consumed text is a literal of the scanner's
grammar (digits, optionally a dot and digits, optionally a marker, an optional sign and
digits), and no longer prefix of the input (the text followed by one or more of the
characters left under the cursor) is one. -/
theorem extract_longest_match {D F : Type} (ops : FloatOps D F) (chars : List Char)
    (pos : Nat)
    (hsucc : (extract ops (Token.fresh F) ⟨chars, pos⟩).1.type = .JT_INTEGER ∨
      (extract ops (Token.fresh F) ⟨chars, pos⟩).1.type = .JT_DOUBLE) :
    isdigit (extract ops (Token.fresh F) ⟨chars, pos⟩).2.current_char = false ∧
    ((extract ops (Token.fresh F) ⟨chars, pos⟩).1.type = .JT_INTEGER →
      (extract ops (Token.fresh F) ⟨chars, pos⟩).2.current_char ≠ 'E' ∧
      (extract ops (Token.fresh F) ⟨chars, pos⟩).2.current_char ≠ 'e' ∧
      ((extract ops (Token.fresh F) ⟨chars, pos⟩).2.current_char = '.' →
        (extract ops (Token.fresh F) ⟨chars, pos⟩).2.peek_char = '.')) ∧
    ((extract ops (Token.fresh F) ⟨chars, pos⟩).1.type = .JT_DOUBLE →
      'E' ∉ (extract ops (Token.fresh F) ⟨chars, pos⟩).1.text →
      'e' ∉ (extract ops (Token.fresh F) ⟨chars, pos⟩).1.text →
      (extract ops (Token.fresh F) ⟨chars, pos⟩).2.current_char ≠ 'E' ∧
      (extract ops (Token.fresh F) ⟨chars, pos⟩).2.current_char ≠ 'e') ∧
    IsLiteral (extract ops (Token.fresh F) ⟨chars, pos⟩).1.text ∧
    (∀ ext, ext ≠ [] → ext <+: (extract ops (Token.fresh F) ⟨chars, pos⟩).2.chars →
      ¬ IsLiteral ((extract ops (Token.fresh F) ⟨chars, pos⟩).1.text ++ ext)) :=
  scanned_longest (extract_scanned ops (Token.fresh F) chars pos) rfl hsucc

/-- C16 at the input 3.14.5: Real with text 3.14, the cursor left on the second dot, and
3.14.5 is not a literal. -/
theorem extract_longest_match_witness :
    isdigit (extract exactOps (Token.fresh ℚ) ⟨"3.14.5".toList, 0⟩).2.current_char = false ∧
      IsLiteral (extract exactOps (Token.fresh ℚ) ⟨"3.14.5".toList, 0⟩).1.text :=
  have h := extract_longest_match exactOps "3.14.5".toList 0 (by
    have h314 : (extract exactOps (Token.fresh ℚ) ⟨"3.14.5".toList, 0⟩).1.type = .JT_DOUBLE := by
      have hs := extract_mantissa exactOps (Token.fresh ℚ) "3".toList "14".toList ".5".toList 0
        (by decide) (by decide) (by decide) (by decide) (by decide)
      have hin : "3".toList ++ (fractionText "14".toList ++ ".5".toList) = "3.14.5".toList := by
        decide
      rw [hin] at hs
      rw [hs, extract_exponent_none exactOps _ _ _ _ false (Or.inr ⟨by decide, by decide⟩)]
      have hty : (if "14".toList = [] then TokenType.JT_INTEGER else TokenType.JT_DOUBLE)
          = TokenType.JT_DOUBLE := by decide
      rw [hty, compute_value_real_eq]
      have hpass : ¬ (abs32 (wrap32 (adjust_exponent (returned_value []) "14".toList '+'
          + wrap32 (("3".toList).length : Int))) > MAX_EXPONENT) := by decide
      have hfire : watermark_fires [] = false := by decide
      rw [if_neg hpass, hfire]
      rfl
    exact Or.inr h314)
  ⟨h.1, h.2.2.2.1⟩

/-! ## Errors of a real literal -/

end JavaNumberToken
